import Mathlib

/-!
# links: extraction, diff loop, state store and report

A shallow embedding of `bin/links.go`.

* A Go `string` is the list of its characters (`GoString`).
* A Go `map[string]T` is an association list read through `mapGet` and
  written through `mapSet`; well-formed maps have pairwise distinct keys.
* A Go `int` is an `Int` in `[-2^63, 2^63)`; `+` wraps (`addInt`).
* The response writer is the list of `Fprintf` calls made on it (`Write`),
  each with its exact text (`Write.text`).
* The parts of the outside world the program calls into (the digest, the
  iteration order of `range` over a map, file creation and opening, the
  tail of `net/url` parsing) are the fields of `Env`.
-/

namespace Links

/-! ## Strings, integers and maps -/

/-- A Go string. -/
abbrev GoString := List Char

/-- Least Go `int` (64 bit). -/
def minInt : Int := -9223372036854775808

/-- Greatest Go `int` (64 bit). -/
def maxInt : Int := 9223372036854775807

/-- Values that a Go `int` can hold. -/
def inIntRange (x : Int) : Prop := minInt ≤ x ∧ x ≤ maxInt

instance (x : Int) : Decidable (inIntRange x) := by
  unfold inIntRange; infer_instance

/-- Reduction of a mathematical integer into the range of `int`
(two's complement, 64 bit). -/
def wrapInt (x : Int) : Int := (x + 9223372036854775808) % 18446744073709551616 - 9223372036854775808

/-- Go `a + b` on `int`. -/
def addInt (a b : Int) : Int := wrapInt (a + b)

/-- A Go `map[string]T`. -/
abbrev GoMap (β : Type) := List (GoString × β)

/-- Go `v, ok := m[key]`: `none` stands for `ok == false`. -/
def mapGet {β : Type} : GoMap β → GoString → Option β
  | [], _ => none
  | (k, v) :: m, key => if k = key then some v else mapGet m key

/-- Go `m[key] = v`. -/
def mapSet {β : Type} : GoMap β → GoString → β → GoMap β
  | [], key, v => [(key, v)]
  | (k, v0) :: m, key, v => if k = key then (k, v) :: m else (k, v0) :: mapSet m key v

/-- The keys of a map. -/
def mapKeys {β : Type} (m : GoMap β) : List GoString := m.map Prod.fst

/-- Well-formedness of a map: no key occurs twice. -/
def mapWF {β : Type} (m : GoMap β) : Prop := (mapKeys m).Nodup

instance {β : Type} (m : GoMap β) : Decidable (mapWF m) := by
  unfold mapWF; infer_instance

/-! ## The outside world -/

/-- What the program observes of a parsed `*url.URL`. -/
structure URL where
  /-- Field `Scheme`. -/
  Scheme : GoString
  /-- Result of `Hostname()`. -/
  Hostname : GoString
deriving DecidableEq, Repr

/-- The environment of the program. -/
structure Env where
  /-- Function `md5_`: the hexadecimal MD5 digest of the source URL, used as file name. -/
  md5_ : GoString → GoString
  /-- The order in which `for u, count := range urlCount` visits the entries. -/
  rangeOrder : GoMap Int → GoMap Int
  /-- Go visits every entry once. -/
  rangeOrder_perm : ∀ m, (rangeOrder m).Perm m
  /-- Whether `os.Create` succeeds on a path. -/
  createOk : GoString → Bool
  /-- Whether `os.Open` succeeds on the path of an existing file. -/
  openOk : GoString → Bool
  /-- Everything `url.Parse` does besides splitting off the scheme (control
  characters, authority, path, query, fragment): an error (`none`) or the
  `Hostname()` of the result, for the raw URL given. -/
  hostOf : GoString → Option GoString

/-- The files of the working directory: path to content. -/
abbrev Disk := GoMap GoString

/-! ## String functions of the Go library -/

/-- Go `strings.HasPrefix`. -/
def HasPrefix (s pre : GoString) : Bool := pre.isPrefixOf s

/-- Go `unicode.IsSpace`. -/
def isSpace (c : Char) : Bool :=
  c = '\t' || c = '\n' || c.toNat = 0x0B || c.toNat = 0x0C || c = '\r' || c = ' ' ||
  c.toNat = 0x85 || c.toNat = 0xA0 || c.toNat = 0x1680 ||
  (0x2000 ≤ c.toNat && c.toNat ≤ 0x200A) ||
  c.toNat = 0x2028 || c.toNat = 0x2029 || c.toNat = 0x202F || c.toNat = 0x205F ||
  c.toNat = 0x3000

/-- Go `strings.TrimSpace`. -/
def TrimSpace (s : GoString) : GoString :=
  ((s.dropWhile isSpace).reverse.dropWhile isSpace).reverse

/-- Go `strings.ToLower` on the characters a scheme can hold. -/
def ToLower (s : GoString) : GoString := s.map Char.toLower

/-- Go `strings.Cut(s, sep)` for a one-character separator: the text before the first
separator and the text after it; the whole text and nothing when there is none. -/
def Cut (sep : Char) : GoString → GoString × GoString
  | [] => ([], [])
  | c :: cs => if c = sep then ([], cs) else ((c :: (Cut sep cs).1), (Cut sep cs).2)

/-- Go `strings.SplitN(s, " ", 2)`. -/
def SplitN2 : GoString → List GoString
  | [] => [[]]
  | c :: cs =>
    if c = ' ' then [[], cs]
    else match SplitN2 cs with
      | [a, b] => [c :: a, b]
      | _ => [c :: cs]

/-- The decimal digit of a number below ten. -/
def digitChar (d : Nat) : Char := Char.ofNat (48 + d)

/-- Decimal digits of a natural number, most significant first, prepended to `acc`. -/
def natDigits : Nat → Nat → GoString → GoString
  | 0, _, acc => acc
  | fuel + 1, n, acc =>
    if n < 10 then digitChar n :: acc
    else natDigits fuel (n / 10) (digitChar (n % 10) :: acc)

/-- Go `%d` applied to a non-negative number. -/
def fmtNat (n : Nat) : GoString := natDigits (n + 1) n []

/-- Go `%d`. -/
def fmtInt (x : Int) : GoString :=
  if x < 0 then '-' :: fmtNat x.natAbs else fmtNat x.natAbs

/-- Whether a character is a decimal digit. -/
def isDigit (c : Char) : Bool := 48 ≤ c.toNat && c.toNat ≤ 57

/-- The value of a run of decimal digits. -/
def digitsValue (ds : GoString) : Nat := ds.foldl (fun n c => n * 10 + (c.toNat - 48)) 0

/-- Go `strconv.Atoi`: an optional sign, then one or more decimal digits, of a value
that fits `int`; `none` is an error. -/
def Atoi (s : GoString) : Option Int :=
  let neg : Bool := s.head? = some '-'
  let ds : GoString := if s.head? = some '-' ∨ s.head? = some '+' then s.tail else s
  if ds = [] ∨ ds.all isDigit = false then none
  else
    let v : Int := if neg then -(digitsValue ds : Int) else (digitsValue ds : Int)
    if inIntRange v then some v else none

/-- Split of a text at its line feeds, as `bufio.ScanLines` sees it: a line feed ends
a line, and a last line without one counts when it is not empty. -/
def splitLines : GoString → List GoString
  | [] => []
  | c :: cs =>
    if c = '\n' then [] :: splitLines cs
    else match splitLines cs with
      | [] => [[c]]
      | l :: ls => (c :: l) :: ls

/-- Go `dropCR` of `bufio`: one trailing carriage return is removed. -/
def dropCR (l : GoString) : GoString :=
  if l.getLast? = some '\r' then l.dropLast else l

/-- Number of bytes of a string (UTF-8). -/
def byteLen (s : GoString) : Nat := (s.map Char.utf8Size).sum

/-- Go `bufio.MaxScanTokenSize`. -/
def MaxScanTokenSize : Nat := 65536

/-- The tokens that `scanner.Scan()` / `scanner.Text()` yield over a file content with
the default `bufio.Scanner`: its lines, up to the first one that does not fit the
buffer (there `Scan` returns false). -/
def scanTokens (content : GoString) : List GoString :=
  ((splitLines content).takeWhile (fun l => decide (byteLen l < MaxScanTokenSize))).map dropCR

/-! ## The state store -/

/-- The loop of `saveUrlCount` over the entries in the order `range` yields them:
the text written to the file. -/
def saveLoop (entries : GoMap Int) : GoString :=
  entries.foldl
    (fun file e => if e.2 > 0 then file ++ (e.1 ++ [' '] ++ fmtInt e.2 ++ ['\n']) else file) []

/-- Function `saveUrlCount`: `none` is the error of `os.Create`; otherwise the file
named by the digest is replaced by what the loop writes. -/
def saveUrlCount (env : Env) (disk : Disk) (sourceUrl : GoString) (urlCount : GoMap Int) :
    Option Disk :=
  let filepath := env.md5_ sourceUrl
  if env.createOk filepath then
    some (mapSet disk filepath (saveLoop (env.rangeOrder urlCount)))
  else none

/-- The body of the scanner loop of `loadUrlCount` for one line. -/
def loadLine (urlCount : GoMap Int) (line : GoString) : GoMap Int :=
  match SplitN2 line with
  | [p0, p1] =>
    match Atoi p1 with
    | some count => mapSet urlCount p0 count
    | none => urlCount
  | _ => urlCount

/-- The scanner loop of `loadUrlCount` over a file content. -/
def loadLoop (content : GoString) : GoMap Int :=
  (scanTokens content).foldl loadLine []

/-- Function `loadUrlCount`: the empty map when the file does not exist, `none` for
the error of `os.Open`, otherwise the map read by the scanner loop. -/
def loadUrlCount (env : Env) (disk : Disk) (sourceUrl : GoString) : Option (GoMap Int) :=
  let filepath := env.md5_ sourceUrl
  match mapGet disk filepath with
  | none => some []
  | some content => if env.openOk filepath then some (loadLoop content) else none

/-! ## Link extraction -/

/-- Whether a character is an ASCII letter. -/
def isLetter (c : Char) : Bool :=
  (97 ≤ c.toNat && c.toNat ≤ 122) || (65 ≤ c.toNat && c.toNat ≤ 90)

/-- The loop of Go `getScheme` of `net/url` over the characters not yet read; `first`
says that none has been read, `pre` holds those read. -/
def getSchemeLoop (rawURL : GoString) : Bool → GoString → GoString → Option (GoString × GoString)
  | _, _, [] => some ([], rawURL)
  | first, pre, c :: cs =>
    if isLetter c then getSchemeLoop rawURL false (pre ++ [c]) cs
    else if isDigit c || c = '+' || c = '-' || c = '.' then
      if first then some ([], rawURL) else getSchemeLoop rawURL false (pre ++ [c]) cs
    else if c = ':' then
      if first then none else some (pre, cs)
    else some ([], rawURL)

/-- Go `getScheme` of `net/url`: the scheme and the rest; `none` is the error
"missing protocol scheme". -/
def getScheme (rawURL : GoString) : Option (GoString × GoString) :=
  getSchemeLoop rawURL true [] rawURL

/-- Go `url.Parse`, as far as the program observes it: the fragment is cut off, the
scheme is split off and lowered, the remainder of the parse is the environment's. -/
def Parse (env : Env) (rawURL : GoString) : Option URL :=
  match getScheme (Cut '#' rawURL).1 with
  | none => none
  | some (scheme, _) =>
    match env.hostOf rawURL with
    | none => none
    | some host => some { Scheme := ToLower scheme, Hostname := host }

/-- An element selected by `doc.Find("html a")`: what `Attr("href")` and `Text()`
return for it. -/
structure Anchor where
  /-- The value of the attribute `href`, when the element has one. -/
  href : Option GoString
  /-- The text content of the element. -/
  text : GoString
deriving DecidableEq, Repr

/-- Type `link`. -/
structure link where
  /-- Field `url`. -/
  url : GoString
  /-- Field `text`. -/
  text : GoString
deriving DecidableEq, Repr

/-- The closure `f` of `getLinks`, given to `FilterFunction`. -/
def filterF (env : Env) (s : Anchor) : Bool :=
  let linkUrl := s.href.getD []
  match Parse env linkUrl with
  | none => false
  | some url_ =>
    decide (url_.Hostname.length > 0) &&
      (HasPrefix linkUrl "https://".toList || HasPrefix linkUrl "http://".toList)

/-- The closure given to `Each` in `getLinks`: the channel after the element `tag`. -/
def eachF (links : List link) (tag : Anchor) : List link :=
  match tag.href with
  | some linkUrl =>
    let linkText := TrimSpace tag.text
    let linkText := if linkText.length = 0 then linkUrl else linkText
    links ++ [{ url := linkUrl, text := linkText }]
  | none => links

/-- Function `getLinks`: everything sent on the channel before it is closed. `doc` is
the result of `getDoc` (`none` for an error: transport, status other than 200, or
parsing), reduced to its selection `html a` in document order. -/
def getLinks (env : Env) (doc : Option (List Anchor)) : List link :=
  match doc with
  | none => []
  | some anchors => (anchors.filter (filterF env)).foldl eachF []

/-! ## The handler -/

/-- One `fmt.Fprintf(w, ...)` of `ServeHTTP`. -/
inductive Write where
  /-- The opening of the page. -/
  | header
  /-- The heading of a source. -/
  | heading (sourceUrl : GoString)
  /-- A new link. -/
  | entry (l : link)
  /-- The notice of a source without new links. -/
  | notice
  /-- The closing of the page. -/
  | footer
deriving DecidableEq, Repr

/-- The text that a write puts on the response. -/
def Write.text : Write → GoString
  | .header => "<html><head></head><body>\n".toList
  | .heading sourceUrl => "<h3>".toList ++ sourceUrl ++ "</h3>\n".toList
  | .entry l => "<p><a href=\"".toList ++ l.url ++ "\">".toList ++ l.text ++ "</a></p>\n".toList
  | .notice => "<p>No new links found</p>".toList
  | .footer => "</body></html>".toList

/-- The text of a response. -/
def responseText (w : List Write) : GoString := (w.map Write.text).flatten

/-- The links of the entries written, in the order written. -/
def reported (w : List Write) : List link :=
  w.filterMap (fun x => match x with
    | .entry l => some l
    | _ => none)

/-- Number of notices written. -/
def notices (w : List Write) : Nat := w.count Write.notice

/-- Type `httpHandler`. -/
structure httpHandler where
  /-- Field `sourceUrls`. -/
  sourceUrls : List GoString
  /-- Field `urlCount`. -/
  urlCount : GoMap (GoMap Int)

/-- The variables of one round of the outer loop of `ServeHTTP`, with the writer. -/
structure PassState where
  /-- The writes made so far. -/
  w : List Write
  /-- Local `urlCount`. -/
  urlCount : GoMap Int
  /-- Local `newLinkFound`. -/
  newLinkFound : Bool

/-- The body of `for link := range links[i]` (the diff loop). -/
def diffStep (hUrlCount : GoMap (GoMap Int)) (sourceUrl : GoString) (st : PassState)
    (l : link) : PassState :=
  match mapGet hUrlCount sourceUrl with
  | some uc =>
    match mapGet uc l.url with
    | some count => { st with urlCount := mapSet st.urlCount l.url (addInt count 1) }
    | none =>
      match mapGet st.urlCount l.url with
      | none =>
        { w := st.w ++ [Write.entry l]
          urlCount := mapSet st.urlCount l.url 1
          newLinkFound := true }
      | some _ => st
  | none => st

/-- The diff loop over a whole link stream, from the start of a round. -/
def diffLoop (hUrlCount : GoMap (GoMap Int)) (sourceUrl : GoString) (w : List Write)
    (stream : List link) : PassState :=
  stream.foldl (diffStep hUrlCount sourceUrl) { w := w, urlCount := [], newLinkFound := false }

/-- The links that the diff loop reports as new for a source over a stream. -/
def foundBy (hUrlCount : GoMap (GoMap Int)) (sourceUrl : GoString) (stream : List link) :
    List link :=
  reported (diffLoop hUrlCount sourceUrl [] stream).w

/-- The state that `ServeHTTP` works on: the handler's map, the response, the files. -/
structure Server where
  /-- Field `h.urlCount`. -/
  urlCount : GoMap (GoMap Int)
  /-- The writes made on the response. -/
  w : List Write
  /-- The files. -/
  disk : Disk

/-- One round of the second loop of `ServeHTTP`: the source `sourceUrl` with the
stream received on its channel. -/
def servePass (env : Env) (sv : Server) (sourceUrl : GoString) (stream : List link) : Server :=
  let st := diffLoop sv.urlCount sourceUrl (sv.w ++ [Write.heading sourceUrl]) stream
  let w := if st.newLinkFound then st.w else st.w ++ [Write.notice]
  { urlCount := mapSet sv.urlCount sourceUrl st.urlCount
    w := w
    disk := match saveUrlCount env sv.disk sourceUrl st.urlCount with
      | some d => d
      | none => sv.disk }

/-- The second loop of `ServeHTTP` over the sources from index `i` on; `streams j` is
what the channel `links[j]` delivers. -/
def serveLoop (env : Env) (streams : Nat → List link) : Nat → List GoString → Server → Server
  | _, [], sv => sv
  | i, sourceUrl :: rest, sv =>
    serveLoop env streams (i + 1) rest (servePass env sv sourceUrl (streams i))

/-- Method `ServeHTTP`: one request. -/
def ServeHTTP (env : Env) (h : httpHandler) (disk : Disk) (streams : Nat → List link) : Server :=
  let sv := serveLoop env streams 0 h.sourceUrls
    { urlCount := h.urlCount, w := [Write.header], disk := disk }
  { sv with w := sv.w ++ [Write.footer] }

/-! ## Specification-side definitions -/

/-- Specification of the diff loop's report: the links of `S`, in stream order, that
are the first occurrence of their URL in `S` and whose URL is not a key of `P`. -/
def firstOccurrencesNotIn (P : GoMap Int) (S : List link) : List link :=
  (List.range S.length).filterMap (fun i =>
    match S[i]? with
    | some l =>
      if mapGet P l.url = none ∧ ∀ x ∈ S.take i, x.url ≠ l.url then some l else none
    | none => none)

/-- Specification of the count that the next state holds for a URL of the stream:
the prior count plus one (Go `+` on `int`) for a key of `P`, and 1 otherwise. -/
def nextCount (P : GoMap Int) (u : GoString) : Int :=
  match mapGet P u with
  | some c => addInt c 1
  | none => 1

/-- Specification of a source's section of the report: the heading, one entry per
newly found link, and the notice when there is none. -/
def sectionOf (sourceUrl : GoString) (found : List link) : List Write :=
  [Write.heading sourceUrl] ++ found.map Write.entry ++
    (if found = [] then [Write.notice] else [])

/-- The line of the state record for one entry: URL, one space, decimal count, line
feed. -/
def recordLine (e : GoString × Int) : GoString :=
  e.1 ++ [' '] ++ fmtInt e.2 ++ ['\n']

/-- The text of a record line without its line feed. -/
def recordText (e : GoString × Int) : GoString :=
  e.1 ++ [' '] ++ fmtInt e.2

/-- The entries of a map that the state record keeps: those with a count above zero. -/
def positiveEntries (m : GoMap Int) : GoMap Int :=
  m.filter (fun e => decide (e.2 > 0))

/-- Saving a map for a source and then loading the source's record, as `saveUrlCount`
followed by `loadUrlCount`; `none` when either fails. -/
def saveThenLoad (env : Env) (disk : Disk) (sourceUrl : GoString) (M : GoMap Int) :
    Option (GoMap Int) :=
  (saveUrlCount env disk sourceUrl M).bind (fun d => loadUrlCount env d sourceUrl)

/-- The state of the server when the round of the source at index `i` starts: the
state after the rounds of the sources before it. -/
def stateBefore (env : Env) (h : httpHandler) (disk : Disk) (streams : Nat → List link)
    (i : Nat) : Server :=
  serveLoop env streams 0 (h.sourceUrls.take i)
    { urlCount := h.urlCount, w := [Write.header], disk := disk }

/-- The links that the diff loop finds in the round of the source at index `i`. -/
def foundAt (env : Env) (h : httpHandler) (disk : Disk) (streams : Nat → List link)
    (i : Nat) : List link :=
  foundBy (stateBefore env h disk streams i).urlCount (h.sourceUrls.getD i []) (streams i)

/-- Specification of the display text of a link. -/
def displayText (href text : GoString) : GoString :=
  if TrimSpace text = [] then href else TrimSpace text

/-! ## Concrete data for the worked examples -/

/-- An environment for the examples: file names are the source URLs themselves,
`range` follows the list, files can be created and opened, and every URL parses with
host `x.com`. -/
def exampleEnv : Env where
  md5_ := id
  rangeOrder := id
  rangeOrder_perm := fun _ => List.Perm.refl _
  createOk := fun _ => true
  openOk := fun _ => true
  hostOf := fun _ => some "x.com".toList

/-- The link `https://x.com/a` with text `A`. -/
def linkA : link := { url := "https://x.com/a".toList, text := "A".toList }

/-- The link `https://x.com/b` with text `B`. -/
def linkB : link := { url := "https://x.com/b".toList, text := "B".toList }

/-- The link `https://x.com/b` with another text. -/
def linkB2 : link := { url := "https://x.com/b".toList, text := "again".toList }

/-- A handler map that holds, for the source `s`, the state with the one entry
`https://x.com/a` of count 3. -/
def exampleHandlerMap : GoMap (GoMap Int) := [("s".toList, [("https://x.com/a".toList, 3)])]

/-- A server state over `exampleHandlerMap` with an opened response and no files. -/
def exampleServer : Server := { urlCount := exampleHandlerMap, w := [Write.header], disk := [] }

/-- The anchors of the document
`<a href="https://x.com/a">A</a><a href="https://x.com/a"> </a><a href="/relative">B</a>`. -/
def exampleAnchors : List Anchor :=
  [{ href := some "https://x.com/a".toList, text := "A".toList },
   { href := some "https://x.com/a".toList, text := " ".toList },
   { href := some "/relative".toList, text := "B".toList }]

/-- A state with a positive, a zero and a negative count. -/
def exampleState : GoMap Int :=
  [("https://x.com/a".toList, 3), ("https://x.com/b".toList, 0),
   ("https://x.com/c".toList, -2), ("https://x.com/d".toList, 12)]

/-! ## Maps -/

theorem mapGet_cons {β : Type} (k0 : GoString) (v0 : β) (m : GoMap β) (k : GoString) :
    mapGet ((k0, v0) :: m) k = if k0 = k then some v0 else mapGet m k := rfl

theorem mapSet_cons {β : Type} (k0 : GoString) (v0 : β) (m : GoMap β) (k : GoString) (v : β) :
    mapSet ((k0, v0) :: m) k v = if k0 = k then (k0, v) :: m else (k0, v0) :: mapSet m k v := rfl

theorem mapKeys_cons {β : Type} (k0 : GoString) (v0 : β) (m : GoMap β) :
    mapKeys ((k0, v0) :: m) = k0 :: mapKeys m := rfl

theorem mapGet_mapSet_same {β : Type} (m : GoMap β) (k : GoString) (v : β) :
    mapGet (mapSet m k v) k = some v := by
  induction m with
  | nil => simp [mapSet, mapGet]
  | cons e m ih =>
    obtain ⟨k0, v0⟩ := e
    rw [mapSet_cons]
    by_cases h : k0 = k
    · rw [if_pos h, mapGet_cons, if_pos h]
    · rw [if_neg h, mapGet_cons, if_neg h, ih]

theorem mapGet_mapSet_ne {β : Type} (m : GoMap β) (k k2 : GoString) (v : β) (h : k ≠ k2) :
    mapGet (mapSet m k v) k2 = mapGet m k2 := by
  induction m with
  | nil => simp [mapSet, mapGet, h]
  | cons e m ih =>
    obtain ⟨k0, v0⟩ := e
    rw [mapSet_cons]
    by_cases h0 : k0 = k
    · have h1 : k0 ≠ k2 := fun hh => h (h0 ▸ hh)
      rw [if_pos h0, mapGet_cons, mapGet_cons, if_neg h1, if_neg h1]
    · rw [if_neg h0, mapGet_cons, mapGet_cons, ih]

theorem mapGet_eq_none_iff {β : Type} (m : GoMap β) (k : GoString) :
    mapGet m k = none ↔ k ∉ mapKeys m := by
  induction m with
  | nil => exact ⟨fun _ h => (by cases h), fun _ => rfl⟩
  | cons e m ih =>
    obtain ⟨k0, v0⟩ := e
    rw [mapGet_cons, mapKeys_cons, List.mem_cons]
    by_cases h : k0 = k
    · rw [if_pos h]
      exact ⟨fun hh => (by cases hh), fun hh => absurd (Or.inl h.symm) hh⟩
    · rw [if_neg h, ih]
      constructor
      · intro hn hh
        rcases hh with hh | hh
        · exact h hh.symm
        · exact hn hh
      · intro hn hh
        exact hn (Or.inr hh)

theorem mapKeys_mapSet {β : Type} (m : GoMap β) (k : GoString) (v : β) :
    mapKeys (mapSet m k v) = if k ∈ mapKeys m then mapKeys m else mapKeys m ++ [k] := by
  induction m with
  | nil => rfl
  | cons e m ih =>
    obtain ⟨k0, v0⟩ := e
    rw [mapSet_cons, mapKeys_cons]
    by_cases h : k0 = k
    · rw [if_pos h, if_pos (List.mem_cons.mpr (Or.inl h.symm)), mapKeys_cons]
    · rw [if_neg h, mapKeys_cons, ih]
      have h2 : ¬ k = k0 := fun hh => h hh.symm
      by_cases hm : k ∈ mapKeys m
      · rw [if_pos hm, if_pos (List.mem_cons.mpr (Or.inr hm))]
      · rw [if_neg hm, if_neg (fun hh => (List.mem_cons.mp hh).elim h2 hm)]
        rfl

theorem mapWF_mapSet {β : Type} (m : GoMap β) (k : GoString) (v : β) (h : mapWF m) :
    mapWF (mapSet m k v) := by
  unfold mapWF at *
  rw [mapKeys_mapSet]
  by_cases hm : k ∈ mapKeys m
  · rw [if_pos hm]; exact h
  · rw [if_neg hm]
    exact List.Nodup.append h (List.nodup_singleton k) (by simpa using hm)

/-! ## The diff loop -/

theorem firstOccurrencesNotIn_concat (P : GoMap Int) (S : List link) (l : link) :
    firstOccurrencesNotIn P (S ++ [l]) =
      firstOccurrencesNotIn P S ++
        (if mapGet P l.url = none ∧ ∀ x ∈ S, x.url ≠ l.url then [l] else []) := by
  unfold firstOccurrencesNotIn
  rw [List.length_append, List.length_singleton, List.range_succ, List.filterMap_append]
  congr 1
  · apply List.filterMap_congr
    intro i hi
    have hi2 : i < S.length := List.mem_range.mp hi
    rw [List.getElem?_append_left hi2, List.take_append_of_le_length (Nat.le_of_lt hi2)]
  · simp only [List.filterMap_cons, List.filterMap_nil, List.getElem?_concat_length,
      List.take_left]
    by_cases h : mapGet P l.url = none ∧ ∀ x ∈ S, x.url ≠ l.url
    · rw [if_pos h, if_pos h]
    · rw [if_neg h, if_neg h]

theorem mem_firstOccurrencesNotIn_url (P : GoMap Int) (S : List link) (u : GoString) :
    u ∈ (firstOccurrencesNotIn P S).map link.url ↔ u ∈ S.map link.url ∧ mapGet P u = none := by
  induction S using List.reverseRecOn with
  | nil => simp [firstOccurrencesNotIn]
  | append_singleton S l ih =>
    rw [firstOccurrencesNotIn_concat, List.map_append, List.mem_append, ih, List.map_append,
      List.mem_append]
    by_cases h : mapGet P l.url = none ∧ ∀ x ∈ S, x.url ≠ l.url
    · rw [if_pos h]
      simp only [List.map_cons, List.map_nil, List.mem_singleton]
      constructor
      · rintro (⟨h1, h2⟩ | h1)
        · exact ⟨Or.inl h1, h2⟩
        · exact ⟨Or.inr h1, h1 ▸ h.1⟩
      · rintro ⟨h1 | h1, h2⟩
        · exact Or.inl ⟨h1, h2⟩
        · exact Or.inr h1
    · rw [if_neg h]
      simp only [List.map_cons, List.map_nil, List.mem_singleton, List.not_mem_nil, or_false]
      constructor
      · rintro ⟨h1, h2⟩
        exact ⟨Or.inl h1, h2⟩
      · rintro ⟨h1 | h1, h2⟩
        · exact ⟨h1, h2⟩
        · subst h1
          have h3 : ¬ ∀ x ∈ S, x.url ≠ l.url := fun hh => h ⟨h2, hh⟩
          push_neg at h3
          obtain ⟨x, hx, hxu⟩ := h3
          exact ⟨List.mem_map.mpr ⟨x, hx, hxu⟩, h2⟩

theorem count_firstOccurrencesNotIn_url (P : GoMap Int) (S : List link) (u : GoString) :
    ((firstOccurrencesNotIn P S).map link.url).count u =
      if u ∈ S.map link.url ∧ mapGet P u = none then 1 else 0 := by
  induction S using List.reverseRecOn with
  | nil => simp [firstOccurrencesNotIn]
  | append_singleton S l ih =>
    rw [firstOccurrencesNotIn_concat, List.map_append, List.count_append, ih]
    by_cases hu : l.url = u
    · subst hu
      by_cases hS : l.url ∈ S.map link.url
      · have h : ¬ (mapGet P l.url = none ∧ ∀ x ∈ S, x.url ≠ l.url) := by
          rintro ⟨_, h2⟩
          obtain ⟨x, hx, hxu⟩ := List.mem_map.mp hS
          exact h2 x hx hxu
        have e : (if mapGet P l.url = none ∧ ∀ x ∈ S, x.url ≠ l.url then [l] else []) = [] :=
          if_neg h
        rw [e]
        by_cases hp : mapGet P l.url = none <;> simp [hS, hp]
      · have h2 : ∀ x ∈ S, x.url ≠ l.url := fun x hx hxu => hS (List.mem_map.mpr ⟨x, hx, hxu⟩)
        by_cases hp : mapGet P l.url = none
        · have e : (if mapGet P l.url = none ∧ ∀ x ∈ S, x.url ≠ l.url then [l] else []) = [l] :=
            if_pos ⟨hp, h2⟩
          rw [e]; simp [hS, hp]
        · have e : (if mapGet P l.url = none ∧ ∀ x ∈ S, x.url ≠ l.url then [l] else []) = [] :=
            if_neg (fun hh => hp hh.1)
          rw [e]; simp [hS, hp]
    · have hu2 : ¬ u = l.url := fun hh => hu hh.symm
      have hc : ((if mapGet P l.url = none ∧ ∀ x ∈ S, x.url ≠ l.url then [l] else []).map
          link.url).count u = 0 := by
        split_ifs
        · rw [List.map_singleton, List.count_singleton]
          simp [hu]
        · rfl
      rw [hc]
      simp [hu2]

theorem find_firstOccurrencesNotIn (P : GoMap Int) (S : List link) (l : link)
    (hl : l ∈ firstOccurrencesNotIn P S) :
    S.find? (fun x => decide (x.url = l.url)) = some l := by
  induction S using List.reverseRecOn with
  | nil => simp [firstOccurrencesNotIn] at hl
  | append_singleton S a ih =>
    rw [firstOccurrencesNotIn_concat, List.mem_append] at hl
    rw [List.find?_append]
    rcases hl with hl | hl
    · rw [ih hl]; rfl
    · by_cases h : mapGet P a.url = none ∧ ∀ x ∈ S, x.url ≠ a.url
      · rw [if_pos h, List.mem_singleton] at hl
        subst hl
        have hnone : S.find? (fun x => decide (x.url = l.url)) = none := by
          rw [List.find?_eq_none]
          intro x hx
          simpa using h.2 x hx
        rw [hnone]
        simp
      · rw [if_neg h] at hl
        cases hl

theorem diffLoop_concat (hUrlCount : GoMap (GoMap Int)) (sourceUrl : GoString) (w : List Write)
    (S : List link) (l : link) :
    diffLoop hUrlCount sourceUrl w (S ++ [l]) =
      diffStep hUrlCount sourceUrl (diffLoop hUrlCount sourceUrl w S) l := by
  unfold diffLoop
  rw [List.foldl_concat]

theorem mem_map_url_concat (S : List link) (l : link) (u : GoString) (h : u ≠ l.url) :
    u ∈ (S ++ [l]).map link.url ↔ u ∈ S.map link.url := by
  rw [List.map_append, List.mem_append]
  constructor
  · rintro (h1 | h1)
    · exact h1
    · rw [List.map_singleton, List.mem_singleton] at h1
      exact absurd h1 h
  · exact Or.inl

theorem self_mem_map_url_concat (S : List link) (l : link) :
    l.url ∈ (S ++ [l]).map link.url := by
  rw [List.map_append, List.mem_append]
  exact Or.inr (List.mem_singleton.mpr rfl)

theorem diffStep_known (hUrlCount : GoMap (GoMap Int)) (sourceUrl : GoString) (P : GoMap Int)
    (hP : mapGet hUrlCount sourceUrl = some P) (st : PassState) (l : link) (c : Int)
    (hc : mapGet P l.url = some c) :
    diffStep hUrlCount sourceUrl st l =
      { st with urlCount := mapSet st.urlCount l.url (addInt c 1) } := by
  simp only [diffStep, hP, hc]

theorem diffStep_new (hUrlCount : GoMap (GoMap Int)) (sourceUrl : GoString) (P : GoMap Int)
    (hP : mapGet hUrlCount sourceUrl = some P) (st : PassState) (l : link)
    (hc : mapGet P l.url = none) (hs : mapGet st.urlCount l.url = none) :
    diffStep hUrlCount sourceUrl st l =
      { w := st.w ++ [Write.entry l], urlCount := mapSet st.urlCount l.url 1,
        newLinkFound := true } := by
  simp only [diffStep, hP, hc, hs]

theorem diffStep_repeat (hUrlCount : GoMap (GoMap Int)) (sourceUrl : GoString) (P : GoMap Int)
    (hP : mapGet hUrlCount sourceUrl = some P) (st : PassState) (l : link) (x : Int)
    (hc : mapGet P l.url = none) (hs : mapGet st.urlCount l.url = some x) :
    diffStep hUrlCount sourceUrl st l = st := by
  simp only [diffStep, hP, hc, hs]

theorem diffStep_unknown_source (hUrlCount : GoMap (GoMap Int)) (sourceUrl : GoString)
    (hP : mapGet hUrlCount sourceUrl = none) (st : PassState) (l : link) :
    diffStep hUrlCount sourceUrl st l = st := by
  simp only [diffStep, hP]

/-- What the diff loop has computed at the end of a stream, when the handler holds the
map `P` for the source. -/
theorem diffLoop_spec (hUrlCount : GoMap (GoMap Int)) (sourceUrl : GoString) (P : GoMap Int)
    (hP : mapGet hUrlCount sourceUrl = some P) (w : List Write) (S : List link) :
    (diffLoop hUrlCount sourceUrl w S).w = w ++ (firstOccurrencesNotIn P S).map Write.entry ∧
    (∀ u, mapGet (diffLoop hUrlCount sourceUrl w S).urlCount u =
      if u ∈ S.map link.url then some (nextCount P u) else none) ∧
    (diffLoop hUrlCount sourceUrl w S).newLinkFound = !(firstOccurrencesNotIn P S).isEmpty ∧
    mapWF (diffLoop hUrlCount sourceUrl w S).urlCount := by
  induction S using List.reverseRecOn with
  | nil =>
    refine ⟨by simp [diffLoop, firstOccurrencesNotIn], ?_, by simp [diffLoop, firstOccurrencesNotIn],
      List.nodup_nil⟩
    intro u
    simp [diffLoop, mapGet]
  | append_singleton S l ih =>
    obtain ⟨ihw, ihN, ihb, ihwf⟩ := ih
    rw [diffLoop_concat, firstOccurrencesNotIn_concat]
    generalize diffLoop hUrlCount sourceUrl w S = st at ihw ihN ihb ihwf
    cases hPl : mapGet P l.url with
    | some c =>
      rw [diffStep_known hUrlCount sourceUrl P hP st l c hPl]
      have e2 : (if some c = none ∧ ∀ x ∈ S, x.url ≠ l.url then [l] else []) = ([] : List link) :=
        if_neg (fun hh => by cases hh.1)
      rw [e2, List.append_nil]
      refine ⟨ihw, ?_, ihb, mapWF_mapSet _ _ _ ihwf⟩
      intro u
      by_cases hu : l.url = u
      · subst hu
        show mapGet (mapSet st.urlCount l.url (addInt c 1)) l.url = _
        rw [mapGet_mapSet_same, if_pos (self_mem_map_url_concat S l)]
        simp [nextCount, hPl]
      · show mapGet (mapSet st.urlCount l.url (addInt c 1)) u = _
        rw [mapGet_mapSet_ne _ _ _ _ hu, ihN u]
        have hu2 : u ≠ l.url := fun hh => hu hh.symm
        simp only [mem_map_url_concat S l u hu2]
    | none =>
      have hN := ihN l.url
      by_cases hS : l.url ∈ S.map link.url
      · rw [if_pos hS] at hN
        rw [diffStep_repeat hUrlCount sourceUrl P hP st l _ hPl hN]
        have e : (if (none : Option Int) = none ∧ ∀ x ∈ S, x.url ≠ l.url then [l] else []) = ([] : List link) := by
          apply if_neg
          rintro ⟨_, h2⟩
          obtain ⟨x, hx, hxu⟩ := List.mem_map.mp hS
          exact h2 x hx hxu
        rw [e, List.append_nil]
        refine ⟨ihw, ?_, ihb, ihwf⟩
        intro u
        by_cases hu : l.url = u
        · subst hu
          rw [hN, if_pos (self_mem_map_url_concat S l)]
        · have hu2 : u ≠ l.url := fun hh => hu hh.symm
          rw [ihN u]
          simp only [mem_map_url_concat S l u hu2]
      · rw [if_neg hS] at hN
        rw [diffStep_new hUrlCount sourceUrl P hP st l hPl hN]
        have h2 : ∀ x ∈ S, x.url ≠ l.url := fun x hx hxu => hS (List.mem_map.mpr ⟨x, hx, hxu⟩)
        have e : (if (none : Option Int) = none ∧ ∀ x ∈ S, x.url ≠ l.url then [l] else []) = [l] :=
          if_pos ⟨rfl, h2⟩
        rw [e]
        refine ⟨?_, ?_, ?_, mapWF_mapSet _ _ _ ihwf⟩
        · show st.w ++ [Write.entry l] = _
          rw [ihw, List.map_append, List.append_assoc]
          rfl
        · intro u
          by_cases hu : l.url = u
          · subst hu
            show mapGet (mapSet st.urlCount l.url 1) l.url = _
            rw [mapGet_mapSet_same, if_pos (self_mem_map_url_concat S l)]
            simp [nextCount, hPl]
          · show mapGet (mapSet st.urlCount l.url 1) u = _
            have hu2 : u ≠ l.url := fun hh => hu hh.symm
            rw [mapGet_mapSet_ne _ _ _ _ hu, ihN u]
            simp only [mem_map_url_concat S l u hu2]
        · show true = _
          simp

theorem reported_append (w1 w2 : List Write) : reported (w1 ++ w2) = reported w1 ++ reported w2 := by
  unfold reported
  rw [List.filterMap_append]

theorem reported_map_entry (R : List link) : reported (R.map Write.entry) = R := by
  induction R with
  | nil => rfl
  | cons l R ih =>
    show l :: reported (R.map Write.entry) = l :: R
    rw [ih]

theorem diffLoop_unknown_source (hUrlCount : GoMap (GoMap Int)) (sourceUrl : GoString)
    (hP : mapGet hUrlCount sourceUrl = none) (w : List Write) (S : List link) :
    diffLoop hUrlCount sourceUrl w S = { w := w, urlCount := [], newLinkFound := false } := by
  induction S using List.reverseRecOn with
  | nil => rfl
  | append_singleton S l ih =>
    rw [diffLoop_concat, ih, diffStep_unknown_source hUrlCount sourceUrl hP]

theorem diffLoop_urlCount_indep (hUrlCount : GoMap (GoMap Int)) (sourceUrl : GoString)
    (w1 w2 : List Write) (S : List link) :
    (diffLoop hUrlCount sourceUrl w1 S).urlCount = (diffLoop hUrlCount sourceUrl w2 S).urlCount := by
  induction S using List.reverseRecOn with
  | nil => rfl
  | append_singleton S l ih =>
    rw [diffLoop_concat, diffLoop_concat]
    generalize diffLoop hUrlCount sourceUrl w1 S = a at ih
    generalize diffLoop hUrlCount sourceUrl w2 S = b at ih
    unfold diffStep
    cases mapGet hUrlCount sourceUrl with
    | none => exact ih
    | some P =>
      dsimp only
      cases mapGet P l.url with
      | some c => dsimp only; rw [ih]
      | none =>
        dsimp only
        rw [ih]
        cases mapGet b.urlCount l.url with
        | none => rfl
        | some x => exact ih

/-- The writes of the diff loop, whatever the handler holds: the entries of the links it
finds, after what was written before; the flag says whether there is one. -/
theorem diffLoop_writes (hUrlCount : GoMap (GoMap Int)) (sourceUrl : GoString) (w : List Write)
    (S : List link) :
    (diffLoop hUrlCount sourceUrl w S).w =
      w ++ (foundBy hUrlCount sourceUrl S).map Write.entry ∧
    (diffLoop hUrlCount sourceUrl w S).newLinkFound = !(foundBy hUrlCount sourceUrl S).isEmpty ∧
    (diffLoop hUrlCount sourceUrl w S).urlCount = (diffLoop hUrlCount sourceUrl [] S).urlCount := by
  refine ⟨?_, ?_, diffLoop_urlCount_indep hUrlCount sourceUrl w [] S⟩
  · unfold foundBy
    cases hP : mapGet hUrlCount sourceUrl with
    | none =>
      rw [diffLoop_unknown_source hUrlCount sourceUrl hP, diffLoop_unknown_source hUrlCount sourceUrl hP]
      simp [reported]
    | some P =>
      rw [(diffLoop_spec hUrlCount sourceUrl P hP w S).1,
        (diffLoop_spec hUrlCount sourceUrl P hP [] S).1, List.nil_append, reported_map_entry]
  · unfold foundBy
    cases hP : mapGet hUrlCount sourceUrl with
    | none =>
      rw [diffLoop_unknown_source hUrlCount sourceUrl hP, diffLoop_unknown_source hUrlCount sourceUrl hP]
      simp [reported]
    | some P =>
      rw [(diffLoop_spec hUrlCount sourceUrl P hP w S).2.2.1,
        (diffLoop_spec hUrlCount sourceUrl P hP [] S).1, List.nil_append, reported_map_entry]

theorem foundBy_known (hUrlCount : GoMap (GoMap Int)) (sourceUrl : GoString) (P : GoMap Int)
    (hP : mapGet hUrlCount sourceUrl = some P) (S : List link) :
    foundBy hUrlCount sourceUrl S = firstOccurrencesNotIn P S := by
  unfold foundBy
  rw [(diffLoop_spec hUrlCount sourceUrl P hP [] S).1, List.nil_append, reported_map_entry]

theorem servePass_w (env : Env) (sv : Server) (sourceUrl : GoString) (S : List link) :
    (servePass env sv sourceUrl S).w = sv.w ++ sectionOf sourceUrl (foundBy sv.urlCount sourceUrl S) := by
  obtain ⟨h1, h2, _⟩ := diffLoop_writes sv.urlCount sourceUrl (sv.w ++ [Write.heading sourceUrl]) S
  show (if (diffLoop sv.urlCount sourceUrl (sv.w ++ [Write.heading sourceUrl]) S).newLinkFound
      then (diffLoop sv.urlCount sourceUrl (sv.w ++ [Write.heading sourceUrl]) S).w
      else (diffLoop sv.urlCount sourceUrl (sv.w ++ [Write.heading sourceUrl]) S).w ++
        [Write.notice]) = _
  rw [h1, h2]
  unfold sectionOf
  cases hf : foundBy sv.urlCount sourceUrl S with
  | nil => simp
  | cons l R => simp

theorem servePass_urlCount (env : Env) (sv : Server) (sourceUrl : GoString) (S : List link) :
    (servePass env sv sourceUrl S).urlCount =
      mapSet sv.urlCount sourceUrl (diffLoop sv.urlCount sourceUrl [] S).urlCount := by
  show mapSet sv.urlCount sourceUrl
    (diffLoop sv.urlCount sourceUrl (sv.w ++ [Write.heading sourceUrl]) S).urlCount = _
  rw [(diffLoop_writes sv.urlCount sourceUrl (sv.w ++ [Write.heading sourceUrl]) S).2.2]

theorem servePass_disk (env : Env) (sv : Server) (sourceUrl : GoString) (S : List link)
    (hc : env.createOk (env.md5_ sourceUrl) = true) :
    (servePass env sv sourceUrl S).disk =
      mapSet sv.disk (env.md5_ sourceUrl)
        (saveLoop (env.rangeOrder (diffLoop sv.urlCount sourceUrl [] S).urlCount)) := by
  show (match saveUrlCount env sv.disk sourceUrl
      (diffLoop sv.urlCount sourceUrl (sv.w ++ [Write.heading sourceUrl]) S).urlCount with
    | some d => d
    | none => sv.disk) = _
  rw [(diffLoop_writes sv.urlCount sourceUrl (sv.w ++ [Write.heading sourceUrl]) S).2.2]
  simp only [saveUrlCount, hc, if_true]

/-! ## Claims about the diff loop -/

theorem addInt_one_of_lt (c : Int) (h : inIntRange c) (hm : c ≠ maxInt) : addInt c 1 = c + 1 := by
  unfold inIntRange minInt maxInt at *
  unfold addInt wrapInt
  omega

theorem firstOccurrencesNotIn_eq_nil (N : GoMap Int) (S : List link)
    (h : ∀ u ∈ S.map link.url, mapGet N u ≠ none) : firstOccurrencesNotIn N S = [] := by
  apply List.eq_nil_iff_forall_not_mem.mpr
  intro l hl
  have hm : l.url ∈ (firstOccurrencesNotIn N S).map link.url := List.mem_map.mpr ⟨l, hl, rfl⟩
  rw [mem_firstOccurrencesNotIn_url] at hm
  exact h l.url hm.1 hm.2

/-- C1: when the handler holds the map `P` for the source, the writes of the diff loop
over a stream `S` are exactly the entries of the links of `S` that are the first
occurrence of their URL and whose URL is not a key of `P`, in stream order. Hence a
URL is reported once when it occurs in `S` and is no key of `P` and never otherwise,
each reported link is the first link of `S` with its URL (so it carries that
occurrence's text), and with `P` empty every URL of `S` is reported exactly once. -/
theorem C1_new_links_are_first_occurrences (hUrlCount : GoMap (GoMap Int))
    (sourceUrl : GoString) (P : GoMap Int) (hP : mapGet hUrlCount sourceUrl = some P)
    (w : List Write) (S : List link) :
    (diffLoop hUrlCount sourceUrl w S).w = w ++ (firstOccurrencesNotIn P S).map Write.entry ∧
    foundBy hUrlCount sourceUrl S = firstOccurrencesNotIn P S ∧
    (∀ u, ((foundBy hUrlCount sourceUrl S).map link.url).count u =
      if u ∈ S.map link.url ∧ mapGet P u = none then 1 else 0) ∧
    (∀ l ∈ foundBy hUrlCount sourceUrl S,
      S.find? (fun x => decide (x.url = l.url)) = some l) ∧
    (P = [] → ∀ u ∈ S.map link.url, ((foundBy hUrlCount sourceUrl S).map link.url).count u = 1) := by
  have hf := foundBy_known hUrlCount sourceUrl P hP S
  refine ⟨(diffLoop_spec hUrlCount sourceUrl P hP w S).1, hf, ?_, ?_, ?_⟩
  · intro u
    rw [hf]
    exact count_firstOccurrencesNotIn_url P S u
  · intro l hl
    rw [hf] at hl
    exact find_firstOccurrencesNotIn P S l hl
  · intro hE u hu
    rw [hf, count_firstOccurrencesNotIn_url, hE]
    exact if_pos ⟨hu, rfl⟩

/-- C1 at the stream `[B, A, B again]` against the prior state `a: 3`: only the
first `b` is reported. -/
theorem C1_new_links_are_first_occurrences_witness :
    mapGet exampleHandlerMap "s".toList = some [("https://x.com/a".toList, 3)] ∧
    foundBy exampleHandlerMap "s".toList [linkB, linkA, linkB2] = [linkB] :=
  ⟨by decide,
    ((C1_new_links_are_first_occurrences exampleHandlerMap "s".toList
      [("https://x.com/a".toList, 3)] (by decide) [] [linkB, linkA, linkB2]).2.1).trans
      (by decide)⟩

theorem mem_of_mapGet_eq_some {β : Type} (m : GoMap β) (k : GoString) (v : β)
    (h : mapGet m k = some v) : (k, v) ∈ m := by
  induction m with
  | nil => cases h
  | cons e m ih =>
    obtain ⟨k0, v0⟩ := e
    rw [mapGet_cons] at h
    by_cases h0 : k0 = k
    · rw [if_pos h0] at h
      simp only [Option.some.injEq] at h
      rw [h0, h]
      exact List.mem_cons_self _ _
    · rw [if_neg h0] at h
      exact List.mem_cons_of_mem _ (ih h)

/-- C2, as stated, fails: the record line `https://x.com/a 9223372036854775807` loads
as the count 9223372036854775807, the greatest `int`; from the prior state with that
entry, over the stream with the one link `https://x.com/a`, the diff loop's `count + 1`
wraps and the next state holds -9223372036854775808 for the URL, which is not the
prior count plus one. -/
theorem C2_counterexample_greatest_int :
    loadLoop "https://x.com/a 9223372036854775807\n".toList =
      [("https://x.com/a".toList, 9223372036854775807)] ∧
    mapGet
      (diffLoop [("s".toList, [("https://x.com/a".toList, 9223372036854775807)])]
        "s".toList [] [linkA]).urlCount
      "https://x.com/a".toList = some (-9223372036854775808) ∧
    (-9223372036854775808 : Int) ≠ 9223372036854775807 + 1 := by
  refine ⟨?_, ?_, ?_⟩ <;> decide

/-- C2, amended: when the handler holds the map `P` for the source (its counts being
Go `int` values) and every count that `P` holds for a URL of the stream `S` is below
the greatest `int`, the map `N`
that the diff loop builds over `S` has no entry for a URL outside `S`, holds
`P[u] + 1` for a URL of `S` that is a key of `P`, and 1 for any other URL of `S`,
however often the URL occurs; the round stores `N` in the handler for the source and,
when the file can be created, writes the record of `N` to the source's file. -/
theorem C2_next_state (env : Env) (sv : Server) (sourceUrl : GoString) (P : GoMap Int)
    (hP : mapGet sv.urlCount sourceUrl = some P) (S : List link)
    (hrange : ∀ e ∈ P, inIntRange e.2)
    (hmax : ∀ e ∈ P, e.1 ∈ S.map link.url → e.2 < maxInt) :
    (∀ u, u ∉ S.map link.url → mapGet (diffLoop sv.urlCount sourceUrl [] S).urlCount u = none) ∧
    (∀ u ∈ S.map link.url, ∀ c, mapGet P u = some c →
      mapGet (diffLoop sv.urlCount sourceUrl [] S).urlCount u = some (c + 1)) ∧
    (∀ u ∈ S.map link.url, mapGet P u = none →
      mapGet (diffLoop sv.urlCount sourceUrl [] S).urlCount u = some 1) ∧
    mapWF (diffLoop sv.urlCount sourceUrl [] S).urlCount ∧
    mapGet (servePass env sv sourceUrl S).urlCount sourceUrl =
      some (diffLoop sv.urlCount sourceUrl [] S).urlCount ∧
    (env.createOk (env.md5_ sourceUrl) = true →
      mapGet (servePass env sv sourceUrl S).disk (env.md5_ sourceUrl) =
        some (saveLoop (env.rangeOrder (diffLoop sv.urlCount sourceUrl [] S).urlCount))) := by
  obtain ⟨_, hN, _, hwf⟩ := diffLoop_spec sv.urlCount sourceUrl P hP [] S
  refine ⟨?_, ?_, ?_, hwf, ?_, ?_⟩
  · intro u hu
    rw [hN u, if_neg hu]
  · intro u hu c hc
    rw [hN u, if_pos hu]
    have e : nextCount P u = addInt c 1 := by simp [nextCount, hc]
    have hm := mem_of_mapGet_eq_some P u c hc
    rw [e, addInt_one_of_lt c (hrange (u, c) hm) (ne_of_lt (hmax (u, c) hm hu))]
  · intro u hu hc
    rw [hN u, if_pos hu]
    simp [nextCount, hc]
  · rw [servePass_urlCount, mapGet_mapSet_same]
  · intro hc
    rw [servePass_disk env sv sourceUrl S hc, mapGet_mapSet_same]

/-- C2, amended, at the prior state `https://x.com/a: 3`: over the stream
`[https://x.com/b]` the next state is `https://x.com/b: 1`, `a` is dropped and `b` is
reported; over the stream `[B, A, B again]` the next state holds 4 for `a`. -/
theorem C2_next_state_witness :
    (diffLoop exampleServer.urlCount "s".toList [] [linkB]).urlCount =
      [("https://x.com/b".toList, 1)] ∧
    foundBy exampleServer.urlCount "s".toList [linkB] = [linkB] ∧
    mapGet (servePass exampleEnv exampleServer "s".toList [linkB]).urlCount "s".toList =
      some [("https://x.com/b".toList, 1)] ∧
    mapGet (diffLoop exampleServer.urlCount "s".toList [] [linkB]).urlCount
      "https://x.com/a".toList = none ∧
    mapGet (diffLoop exampleServer.urlCount "s".toList [] [linkB, linkA, linkB2]).urlCount
      "https://x.com/a".toList = some (3 + 1) :=
  ⟨by decide, by decide,
    ((C2_next_state exampleEnv exampleServer "s".toList [("https://x.com/a".toList, 3)]
      (by decide) [linkB] (by decide) (by decide)).2.2.2.2.1).trans (by decide),
    (C2_next_state exampleEnv exampleServer "s".toList [("https://x.com/a".toList, 3)]
      (by decide) [linkB] (by decide) (by decide)).1 "https://x.com/a".toList (by decide),
    (C2_next_state exampleEnv exampleServer "s".toList [("https://x.com/a".toList, 3)]
      (by decide) [linkB, linkA, linkB2] (by decide) (by decide)).2.1
      "https://x.com/a".toList (by decide) 3 (by decide)⟩

/-- C3: when the handler holds a map for the source, a second round over the same
stream, from the state that the first round left, finds no new link: it writes the
heading and the notice and nothing else. The same holds for the diff loop from any
handler map that holds, for the source, the state `N` built by the first round. -/
theorem C3_second_pass_reports_nothing (env : Env) (sv : Server) (sourceUrl : GoString)
    (P : GoMap Int) (hP : mapGet sv.urlCount sourceUrl = some P) (S : List link) :
    foundBy (servePass env sv sourceUrl S).urlCount sourceUrl S = [] ∧
    (servePass env (servePass env sv sourceUrl S) sourceUrl S).w =
      (servePass env sv sourceUrl S).w ++ [Write.heading sourceUrl, Write.notice] ∧
    (∀ (hUrlCount : GoMap (GoMap Int)) (w : List Write),
      mapGet hUrlCount sourceUrl = some (diffLoop sv.urlCount sourceUrl [] S).urlCount →
        (diffLoop hUrlCount sourceUrl w S).w = w ∧
        (diffLoop hUrlCount sourceUrl w S).newLinkFound = false) := by
  have hnil : firstOccurrencesNotIn (diffLoop sv.urlCount sourceUrl [] S).urlCount S = [] := by
    apply firstOccurrencesNotIn_eq_nil
    intro u hu
    rw [(diffLoop_spec sv.urlCount sourceUrl P hP [] S).2.1 u, if_pos hu]
    exact fun hh => by cases hh
  have hN : mapGet (servePass env sv sourceUrl S).urlCount sourceUrl =
      some (diffLoop sv.urlCount sourceUrl [] S).urlCount := by
    rw [servePass_urlCount, mapGet_mapSet_same]
  have hf : foundBy (servePass env sv sourceUrl S).urlCount sourceUrl S = [] := by
    rw [foundBy_known _ _ _ hN, hnil]
  refine ⟨hf, ?_, ?_⟩
  · rw [servePass_w env (servePass env sv sourceUrl S), hf]
    rfl
  · intro hUrlCount w hU
    obtain ⟨h1, _, h3, _⟩ := diffLoop_spec hUrlCount sourceUrl _ hU w S
    rw [h1, h3, hnil]
    exact ⟨List.append_nil w, rfl⟩

/-- C3 at the prior state `a: 3` and the stream `[B, A, B again]`. -/
theorem C3_second_pass_reports_nothing_witness :
    foundBy (servePass exampleEnv exampleServer "s".toList [linkB, linkA, linkB2]).urlCount
      "s".toList [linkB, linkA, linkB2] = [] :=
  (C3_second_pass_reports_nothing exampleEnv exampleServer "s".toList
    [("https://x.com/a".toList, 3)] (by decide) [linkB, linkA, linkB2]).1

/-- C10: when `getDoc` fails, `getLinks` sends nothing. A round whose stream is empty
leaves the empty map for the source in the handler, whatever the handler held, and,
when the file can be created and opened, an empty record in the source's file, which
loads as the empty map; the round writes the heading and the notice. In the round
after it, over any stream `S`, the links found are the first occurrences of all URLs
of `S`, so every URL of `S` is reported exactly once, the keys of the former state
included. -/
theorem C10_failed_fetch_erases_state (env : Env) (sv : Server) (sourceUrl : GoString)
    (hc : env.createOk (env.md5_ sourceUrl) = true)
    (ho : env.openOk (env.md5_ sourceUrl) = true) :
    getLinks env none = [] ∧
    mapGet (servePass env sv sourceUrl []).urlCount sourceUrl = some [] ∧
    mapGet (servePass env sv sourceUrl []).disk (env.md5_ sourceUrl) = some [] ∧
    loadUrlCount env (servePass env sv sourceUrl []).disk sourceUrl = some [] ∧
    (servePass env sv sourceUrl []).w = sv.w ++ [Write.heading sourceUrl, Write.notice] ∧
    ∀ S : List link,
      foundBy (servePass env sv sourceUrl []).urlCount sourceUrl S = firstOccurrencesNotIn [] S ∧
      ∀ u ∈ S.map link.url,
        ((foundBy (servePass env sv sourceUrl []).urlCount sourceUrl S).map link.url).count u = 1 := by
  have h1 : mapGet (servePass env sv sourceUrl []).urlCount sourceUrl = some [] := by
    rw [servePass_urlCount, mapGet_mapSet_same]
    rfl
  have h2 : mapGet (servePass env sv sourceUrl []).disk (env.md5_ sourceUrl) = some [] := by
    rw [servePass_disk env sv sourceUrl [] hc, mapGet_mapSet_same]
    have e : (diffLoop sv.urlCount sourceUrl [] []).urlCount = [] := rfl
    rw [e, (env.rangeOrder_perm []).eq_nil]
    rfl
  refine ⟨rfl, h1, h2, ?_, ?_, ?_⟩
  · unfold loadUrlCount
    simp only [h2, ho, if_true]
    rfl
  · rw [servePass_w]
    rfl
  · intro S
    have hf := foundBy_known _ _ _ h1 S
    refine ⟨hf, ?_⟩
    intro u hu
    rw [hf, count_firstOccurrencesNotIn_url]
    exact if_pos ⟨hu, rfl⟩

/-- C10 at the prior state `a: 3`: after an empty round, `a` is new again. -/
theorem C10_failed_fetch_erases_state_witness :
    foundBy (servePass exampleEnv exampleServer "s".toList []).urlCount "s".toList
      [linkA, linkB, linkA] = [linkA, linkB] :=
  ((C10_failed_fetch_erases_state exampleEnv exampleServer "s".toList rfl rfl).2.2.2.2.2
    [linkA, linkB, linkA]).1.trans (by decide)

/-! ## Claims about the extraction -/

theorem getScheme_of_http (h : GoString) (hp : HasPrefix h "http://".toList = true) :
    ∃ rest, getScheme (Cut '#' h).1 = some ("http".toList, rest) := by
  obtain ⟨t, rfl⟩ := List.isPrefixOf_iff_prefix.mp hp
  refine ⟨'/' :: '/' :: (Cut '#' t).1, ?_⟩
  simp [Cut, getScheme, getSchemeLoop, isLetter, isDigit]

theorem getScheme_of_https (h : GoString) (hp : HasPrefix h "https://".toList = true) :
    ∃ rest, getScheme (Cut '#' h).1 = some ("https".toList, rest) := by
  obtain ⟨t, rfl⟩ := List.isPrefixOf_iff_prefix.mp hp
  refine ⟨'/' :: '/' :: (Cut '#' t).1, ?_⟩
  simp [Cut, getScheme, getSchemeLoop, isLetter, isDigit]

theorem filterF_def (env : Env) (a : Anchor) :
    filterF env a =
      match Parse env (a.href.getD []) with
      | none => false
      | some url_ =>
        decide (url_.Hostname.length > 0) &&
          (HasPrefix (a.href.getD []) "https://".toList ||
            HasPrefix (a.href.getD []) "http://".toList) := rfl

/-- The filter accepts an element exactly when its `href` starts with `https://` or
`http://` and the rest of the parse succeeds with a non-empty host name; the parsed
scheme is then `https` or `http`. -/
theorem filterF_eq_true (env : Env) (a : Anchor) (hf : filterF env a = true) :
    ∃ h u, a.href = some h ∧ Parse env h = some u ∧ u.Hostname ≠ [] ∧
      (u.Scheme = "http".toList ∨ u.Scheme = "https".toList) ∧
      env.hostOf h = some u.Hostname ∧
      (HasPrefix h "https://".toList = true ∨ HasPrefix h "http://".toList = true) := by
  rw [filterF_def] at hf
  cases hp : Parse env (a.href.getD []) with
  | none => rw [hp] at hf; cases hf
  | some u =>
    rw [hp] at hf
    simp only [Bool.and_eq_true, Bool.or_eq_true, decide_eq_true_eq] at hf
    obtain ⟨hh, hpre⟩ := hf
    have hne : u.Hostname ≠ [] := fun e => by rw [e] at hh; exact absurd hh (by decide)
    cases ha : a.href with
    | none =>
      rw [ha] at hpre
      rcases hpre with h1 | h1 <;> exact absurd h1 (by decide)
    | some h =>
      rw [ha] at hpre hp
      simp only [Option.getD_some] at hpre hp
      refine ⟨h, u, rfl, hp, hne, ?_, ?_, hpre⟩
      · unfold Parse at hp
        rcases hpre with h1 | h1
        · obtain ⟨rest, hs⟩ := getScheme_of_https h h1
          rw [hs] at hp
          cases hh2 : env.hostOf h with
          | none => rw [hh2] at hp; cases hp
          | some host =>
            rw [hh2] at hp
            simp only [Option.some.injEq] at hp
            rw [← hp]
            exact Or.inr (show ToLower "https".toList = "https".toList by decide)
        · obtain ⟨rest, hs⟩ := getScheme_of_http h h1
          rw [hs] at hp
          cases hh2 : env.hostOf h with
          | none => rw [hh2] at hp; cases hp
          | some host =>
            rw [hh2] at hp
            simp only [Option.some.injEq] at hp
            rw [← hp]
            exact Or.inl (show ToLower "http".toList = "http".toList by decide)
      · unfold Parse at hp
        cases hs : getScheme (Cut '#' h).1 with
        | none => rw [hs] at hp; cases hp
        | some sr =>
          rw [hs] at hp
          cases hh2 : env.hostOf h with
          | none => rw [hh2] at hp; cases hp
          | some host =>
            rw [hh2] at hp
            simp only [Option.some.injEq] at hp
            rw [← hp]

theorem filterF_of_prefix_host (env : Env) (h text host : GoString)
    (hpre : HasPrefix h "https://".toList = true ∨ HasPrefix h "http://".toList = true)
    (hh : env.hostOf h = some host) (hne : host ≠ []) :
    filterF env { href := some h, text := text } = true := by
  have hs : ∃ sr, getScheme (Cut '#' h).1 = some sr := by
    rcases hpre with h1 | h1
    · obtain ⟨rest, e⟩ := getScheme_of_https h h1
      exact ⟨_, e⟩
    · obtain ⟨rest, e⟩ := getScheme_of_http h h1
      exact ⟨_, e⟩
  obtain ⟨sr, hs⟩ := hs
  have hlen : 0 < host.length := List.length_pos.mpr hne
  unfold filterF Parse
  simp only [Option.getD_some, hs, hh, Bool.and_eq_true, Bool.or_eq_true, decide_eq_true_eq]
  exact ⟨hlen, hpre⟩

theorem foldl_eachF (anchors : List Anchor) (links : List link)
    (hall : ∀ a ∈ anchors, a.href.isSome = true) :
    anchors.foldl eachF links =
      links ++ anchors.map (fun a =>
        { url := a.href.getD [], text := displayText (a.href.getD []) a.text }) := by
  induction anchors generalizing links with
  | nil => simp
  | cons a rest ih =>
    have ha := hall a (List.mem_cons_self a rest)
    obtain ⟨h, hh⟩ := Option.isSome_iff_exists.mp ha
    rw [List.foldl_cons, ih _ (fun b hb => hall b (List.mem_cons_of_mem a hb)), List.map_cons]
    have e : eachF links a = links ++ [{ url := h, text := displayText h a.text }] := by
      unfold eachF displayText
      rw [hh]
      by_cases ht : TrimSpace a.text = []
      · simp [ht]
      · have : (TrimSpace a.text).length ≠ 0 := fun e0 => ht (List.length_eq_zero.mp e0)
        simp [ht, this]
    rw [e, hh]
    simp

theorem TrimSpace_spec (s : GoString) :
    ∃ pre post, s = pre ++ TrimSpace s ++ post ∧
      (∀ c ∈ pre, isSpace c = true) ∧ (∀ c ∈ post, isSpace c = true) ∧
      (∀ c, (TrimSpace s).head? = some c → isSpace c = false) ∧
      (∀ c, (TrimSpace s).getLast? = some c → isSpace c = false) := by
  have hd : s.dropWhile isSpace =
      TrimSpace s ++ ((s.dropWhile isSpace).reverse.takeWhile isSpace).reverse := by
    unfold TrimSpace
    rw [← List.reverse_append, List.takeWhile_append_dropWhile, List.reverse_reverse]
  refine ⟨s.takeWhile isSpace, ((s.dropWhile isSpace).reverse.takeWhile isSpace).reverse,
    ?_, ?_, ?_, ?_, ?_⟩
  · rw [List.append_assoc, ← hd, List.takeWhile_append_dropWhile]
  · intro c hc
    exact List.mem_takeWhile_imp hc
  · intro c hc
    exact List.mem_takeWhile_imp (List.mem_reverse.mp hc)
  · intro c hc
    have h1 : (s.dropWhile isSpace).head? = some c := by
      rw [hd, List.head?_append, hc]
      rfl
    have h2 := List.head?_dropWhile_not isSpace s
    rw [h1] at h2
    exact h2
  · intro c hc
    have h1 : ((s.dropWhile isSpace).reverse.dropWhile isSpace).head? = some c := by
      unfold TrimSpace at hc
      rw [List.getLast?_reverse] at hc
      exact hc
    have h2 := List.head?_dropWhile_not isSpace (s.dropWhile isSpace).reverse
    rw [h1] at h2
    exact h2

/-- C5: the filter of `getLinks` rejects an element when `url.Parse` fails on its
`href`, when the parsed host name is empty, and when the parsed scheme is neither
`http` nor `https`; so every link that `getLinks` sends has a URL that parses with a
non-empty host name and the scheme `http` or `https`. -/
theorem C5_filter_rejects (env : Env) :
    (∀ a : Anchor, Parse env (a.href.getD []) = none → filterF env a = false) ∧
    (∀ (a : Anchor) (u : URL), Parse env (a.href.getD []) = some u → u.Hostname = [] →
      filterF env a = false) ∧
    (∀ (a : Anchor) (u : URL), Parse env (a.href.getD []) = some u →
      u.Scheme ≠ "http".toList → u.Scheme ≠ "https".toList → filterF env a = false) ∧
    (∀ (doc : Option (List Anchor)), ∀ l ∈ getLinks env doc,
      ∃ u, Parse env l.url = some u ∧ u.Hostname ≠ [] ∧
        (u.Scheme = "http".toList ∨ u.Scheme = "https".toList)) := by
  refine ⟨?_, ?_, ?_, ?_⟩
  · intro a hp
    rw [filterF_def, hp]
  · intro a u hp hh
    rw [filterF_def, hp]
    simp only [hh]
    rfl
  · intro a u hp h1 h2
    cases hf : filterF env a with
    | false => rfl
    | true =>
      obtain ⟨h, u2, ha, hp2, _, hs, _⟩ := filterF_eq_true env a hf
      rw [ha] at hp
      simp only [Option.getD_some] at hp
      rw [hp] at hp2
      cases hp2
      rcases hs with hs | hs
      · exact absurd hs h1
      · exact absurd hs h2
  · intro doc l hl
    cases doc with
    | none => cases hl
    | some anchors =>
      have hall : ∀ a ∈ anchors.filter (filterF env), a.href.isSome = true := by
        intro a ha
        obtain ⟨h, u, hh, _⟩ := filterF_eq_true env a (List.mem_filter.mp ha).2
        rw [hh]; rfl
      unfold getLinks at hl
      simp only [foldl_eachF _ _ hall, List.nil_append] at hl
      obtain ⟨a, ha, rfl⟩ := List.mem_map.mp hl
      obtain ⟨h, u, hh, hp, hne, hs, _⟩ := filterF_eq_true env a (List.mem_filter.mp ha).2
      refine ⟨u, ?_, hne, hs⟩
      rw [hh]
      exact hp

/-- C7: over a fetched document, `getLinks` sends one link for each element that passes
the filter, in document order; its URL is the `href` (which such an element has)
unchanged, and its text is the trimmed text content, or the `href` when that is empty.
The trimmed text is the text content without a leading and a trailing run of white
space, and neither starts nor ends with white space. -/
theorem C7_link_of_anchor (env : Env) (anchors : List Anchor) :
    getLinks env (some anchors) =
      (anchors.filter (filterF env)).map (fun a =>
        { url := a.href.getD [],
          text := if TrimSpace a.text = [] then a.href.getD [] else TrimSpace a.text }) ∧
    (∀ a ∈ anchors.filter (filterF env), ∃ h, a.href = some h) ∧
    (∀ text : GoString, ∃ pre post, text = pre ++ TrimSpace text ++ post ∧
      (∀ c ∈ pre, isSpace c = true) ∧ (∀ c ∈ post, isSpace c = true) ∧
      (∀ c, (TrimSpace text).head? = some c → isSpace c = false) ∧
      (∀ c, (TrimSpace text).getLast? = some c → isSpace c = false)) := by
  have hsome : ∀ a ∈ anchors.filter (filterF env), ∃ h, a.href = some h := by
    intro a ha
    obtain ⟨h, u, hh, _⟩ := filterF_eq_true env a (List.mem_filter.mp ha).2
    exact ⟨h, hh⟩
  refine ⟨?_, hsome, TrimSpace_spec⟩
  have hall : ∀ a ∈ anchors.filter (filterF env), a.href.isSome = true := by
    intro a ha
    obtain ⟨h, hh⟩ := hsome a ha
    rw [hh]; rfl
  unfold getLinks
  simp only [foldl_eachF _ _ hall, List.nil_append]
  rfl

/-- C6: for the three anchors of the worked example, when `https://x.com/a` parses
with a non-empty host name and the handler holds the empty map for the source,
`getLinks` sends the link with text `A` and then the same URL with the URL as text
(the relative link is filtered out), and the round reports exactly one new link:
`https://x.com/a` with text `A`. -/
theorem C6_worked_example (env : Env) (sv : Server) (sourceUrl host : GoString)
    (hh : env.hostOf "https://x.com/a".toList = some host) (hne : host ≠ [])
    (hP : mapGet sv.urlCount sourceUrl = some []) :
    getLinks env (some exampleAnchors) =
      [linkA, { url := "https://x.com/a".toList, text := "https://x.com/a".toList }] ∧
    foundBy sv.urlCount sourceUrl (getLinks env (some exampleAnchors)) = [linkA] ∧
    (servePass env sv sourceUrl (getLinks env (some exampleAnchors))).w =
      sv.w ++ [Write.heading sourceUrl, Write.entry linkA] := by
  have f1 : ∀ t, filterF env { href := some "https://x.com/a".toList, text := t } = true :=
    fun t => filterF_of_prefix_host env _ t host (Or.inl (by decide)) hh hne
  have f3 : filterF env { href := some "/relative".toList, text := "B".toList } = false := by
    cases hf : filterF env { href := some "/relative".toList, text := "B".toList } with
    | false => rfl
    | true =>
      obtain ⟨h, u, ha, _, _, _, _, hpre⟩ := filterF_eq_true env _ hf
      simp only [Option.some.injEq] at ha
      subst ha
      rcases hpre with h1 | h1 <;> exact absurd h1 (by decide)
  have hg : getLinks env (some exampleAnchors) =
      [linkA, { url := "https://x.com/a".toList, text := "https://x.com/a".toList }] := by
    unfold getLinks exampleAnchors
    simp only [List.filter, f1, f3]
    decide
  have hf : foundBy sv.urlCount sourceUrl (getLinks env (some exampleAnchors)) = [linkA] := by
    rw [hg, foundBy_known _ _ _ hP]
    decide
  refine ⟨hg, hf, ?_⟩
  rw [servePass_w, hf]
  rfl

/-- C6 in the example environment, from a server whose handler holds the empty map. -/
theorem C6_worked_example_witness :
    foundBy [("s".toList, [])] "s".toList (getLinks exampleEnv (some exampleAnchors)) =
      [linkA] :=
  (C6_worked_example exampleEnv { urlCount := [("s".toList, [])], w := [], disk := [] }
    "s".toList "x.com".toList rfl (by decide) (by decide)).2.1

/-! ## Decimal numbers -/

theorem digitChar_isDigit (d : Nat) (h : d < 10) : isDigit (digitChar d) = true := by
  have key : ∀ x : Fin 10, isDigit (digitChar x.val) = true := by decide
  exact key ⟨d, h⟩

theorem digitChar_value (d : Nat) (h : d < 10) : (digitChar d).toNat - 48 = d := by
  have key : ∀ x : Fin 10, (digitChar x.val).toNat - 48 = x.val := by decide
  exact key ⟨d, h⟩

theorem digitsValue_concat (ds : GoString) (c : Char) :
    digitsValue (ds ++ [c]) = digitsValue ds * 10 + (c.toNat - 48) := by
  unfold digitsValue
  rw [List.foldl_concat]

/-- With enough fuel, `natDigits` puts before `acc` a non-empty run of decimal digits
whose value is the number. -/
theorem natDigits_spec (fuel n : Nat) (acc : GoString) (h : n < fuel) :
    ∃ ds, natDigits fuel n acc = ds ++ acc ∧ ds ≠ [] ∧ (∀ c ∈ ds, isDigit c = true) ∧
      digitsValue ds = n := by
  induction fuel generalizing n acc with
  | zero => exact absurd h (Nat.not_lt_zero n)
  | succ fuel ih =>
    by_cases h10 : n < 10
    · refine ⟨[digitChar n], ?_, List.cons_ne_nil _ _, ?_, ?_⟩
      · simp [natDigits, h10]
      · intro c hc
        rw [List.mem_singleton] at hc
        rw [hc]
        exact digitChar_isDigit n h10
      · show 0 * 10 + ((digitChar n).toNat - 48) = n
        rw [digitChar_value n h10]
        omega
    · have hlt : n / 10 < fuel := by omega
      obtain ⟨ds, e, hne, hall, hv⟩ := ih (n / 10) (digitChar (n % 10) :: acc) hlt
      have hm : n % 10 < 10 := Nat.mod_lt n (by decide)
      refine ⟨ds ++ [digitChar (n % 10)], ?_, ?_, ?_, ?_⟩
      · simp [natDigits, h10, e]
      · simp
      · intro c hc
        rcases List.mem_append.mp hc with hc | hc
        · exact hall c hc
        · rw [List.mem_singleton] at hc
          rw [hc]
          exact digitChar_isDigit _ hm
      · rw [digitsValue_concat, hv, digitChar_value _ hm]
        omega

theorem fmtNat_spec (n : Nat) :
    fmtNat n ≠ [] ∧ (∀ c ∈ fmtNat n, isDigit c = true) ∧ digitsValue (fmtNat n) = n := by
  obtain ⟨ds, e, hne, hall, hv⟩ := natDigits_spec (n + 1) n [] (Nat.lt_succ_self n)
  rw [List.append_nil] at e
  unfold fmtNat
  rw [e]
  exact ⟨hne, hall, hv⟩

theorem all_isDigit_of_forall (ds : GoString) (h : ∀ c ∈ ds, isDigit c = true) :
    ds.all isDigit = true := List.all_eq_true.mpr h

/-- Reading back a printed `int` gives the `int`. -/
theorem Atoi_fmtInt (x : Int) (hx : inIntRange x) : Atoi (fmtInt x) = some x := by
  obtain ⟨hne, hall, hv⟩ := fmtNat_spec x.natAbs
  obtain ⟨c, rest, e⟩ := List.exists_cons_of_ne_nil hne
  have hc : isDigit c = true := hall c (by rw [e]; exact List.mem_cons_self c rest)
  have hcm : c ≠ '-' := fun hh => by rw [hh] at hc; exact absurd hc (by decide)
  have hcp : c ≠ '+' := fun hh => by rw [hh] at hc; exact absurd hc (by decide)
  have hall2 := all_isDigit_of_forall _ hall
  by_cases hneg : x < 0
  · have hv2 : -((digitsValue (fmtNat x.natAbs) : Nat) : Int) = x := by
      rw [hv]; omega
    unfold fmtInt Atoi
    simp only [hneg, if_true, List.head?_cons, List.tail_cons, true_or, hne, hall2, hv2,
      false_or, Bool.true_eq_false, if_false, decide_True, hx]
  · have hv2 : ((digitsValue (fmtNat x.natAbs) : Nat) : Int) = x := by
      rw [hv]; omega
    unfold fmtInt Atoi
    simp only [hneg, if_false, e, List.head?_cons, Option.some.injEq, hcm, hcp, or_self,
      decide_False, Bool.false_eq_true]
    rw [← e]
    simp only [hne, hall2, hv2, false_or, Bool.true_eq_false, if_false, hx, if_true]

theorem mem_fmtInt (x : Int) (c : Char) (hc : c ∈ fmtInt x) : isDigit c = true ∨ c = '-' := by
  obtain ⟨_, hall, _⟩ := fmtNat_spec x.natAbs
  unfold fmtInt at hc
  by_cases hneg : x < 0
  · rw [if_pos hneg] at hc
    rcases List.mem_cons.mp hc with h | h
    · exact Or.inr h
    · exact Or.inl (hall c h)
  · rw [if_neg hneg] at hc
    exact Or.inl (hall c hc)

theorem fmtInt_ne_nil (x : Int) : fmtInt x ≠ [] := by
  obtain ⟨hne, _, _⟩ := fmtNat_spec x.natAbs
  unfold fmtInt
  by_cases hneg : x < 0
  · rw [if_pos hneg]; exact List.cons_ne_nil _ _
  · rw [if_neg hneg]; exact hne

theorem fmtInt_of_pos (x : Int) (hx : 0 < x) :
    (fmtInt x).all isDigit = true ∧ fmtInt x ≠ [] ∧ (digitsValue (fmtInt x) : Int) = x := by
  obtain ⟨hne, hall, hv⟩ := fmtNat_spec x.natAbs
  have hneg : ¬ x < 0 := by omega
  unfold fmtInt
  rw [if_neg hneg]
  refine ⟨all_isDigit_of_forall _ hall, hne, ?_⟩
  rw [hv]
  omega

/-! ## The state record -/

theorem saveLoop_foldl (entries : GoMap Int) (file : GoString) :
    entries.foldl
      (fun file e => if e.2 > 0 then file ++ (e.1 ++ [' '] ++ fmtInt e.2 ++ ['\n']) else file)
      file = file ++ ((positiveEntries entries).map recordLine).flatten := by
  induction entries generalizing file with
  | nil => simp [positiveEntries]
  | cons e rest ih =>
    rw [List.foldl_cons, ih]
    by_cases h : e.2 > 0
    · simp [positiveEntries, h, recordLine, List.filter_cons]
    · simp [positiveEntries, h, List.filter_cons]

theorem saveLoop_eq (entries : GoMap Int) :
    saveLoop entries = ((positiveEntries entries).map recordLine).flatten := by
  unfold saveLoop
  rw [saveLoop_foldl, List.nil_append]

theorem recordLine_eq (e : GoString × Int) : recordLine e = recordText e ++ ['\n'] := rfl

theorem splitLines_line (l rest : GoString) (h : '\n' ∉ l) :
    splitLines (l ++ '\n' :: rest) = l :: splitLines rest := by
  induction l with
  | nil => simp [splitLines]
  | cons c cs ih =>
    have hc : c ≠ '\n' := fun hh => h (by rw [hh]; exact List.mem_cons_self _ _)
    have hcs : '\n' ∉ cs := fun hh => h (List.mem_cons_of_mem c hh)
    rw [List.cons_append, splitLines, if_neg hc, ih hcs]

theorem splitLines_lines (ls : List GoString) (h : ∀ l ∈ ls, '\n' ∉ l) :
    splitLines ((ls.map (fun l => l ++ ['\n'])).flatten) = ls := by
  induction ls with
  | nil => rfl
  | cons l rest ih =>
    rw [List.map_cons, List.flatten_cons, List.append_assoc, List.singleton_append,
      splitLines_line l _ (h l (List.mem_cons_self l rest)),
      ih (fun x hx => h x (List.mem_cons_of_mem l hx))]

theorem SplitN2_key (key rest : GoString) (h : ' ' ∉ key) :
    SplitN2 (key ++ ' ' :: rest) = [key, rest] := by
  induction key with
  | nil => simp [SplitN2]
  | cons c cs ih =>
    have hc : c ≠ ' ' := fun hh => h (by rw [hh]; exact List.mem_cons_self _ _)
    have hcs : ' ' ∉ cs := fun hh => h (List.mem_cons_of_mem c hh)
    rw [List.cons_append, SplitN2, if_neg hc, ih hcs]

theorem isDigit_ne (c : Char) (h : isDigit c = true) : c ≠ '\n' ∧ c ≠ '\r' ∧ c ≠ ' ' := by
  refine ⟨?_, ?_, ?_⟩ <;> intro hh <;> rw [hh] at h <;> exact absurd h (by decide)

theorem recordText_no_newline (e : GoString × Int) (h : '\n' ∉ e.1) : '\n' ∉ recordText e := by
  unfold recordText
  intro hm
  rcases List.mem_append.mp hm with hm | hm
  · rcases List.mem_append.mp hm with hm | hm
    · exact h hm
    · rw [List.mem_singleton] at hm
      exact absurd hm (by decide)
  · rcases mem_fmtInt e.2 _ hm with hd | hd
    · exact (isDigit_ne _ hd).1 rfl
    · exact absurd hd (by decide)

theorem dropCR_recordText (e : GoString × Int) : dropCR (recordText e) = recordText e := by
  unfold dropCR
  apply if_neg
  unfold recordText
  rw [List.getLast?_append_of_ne_nil _ (fmtInt_ne_nil e.2)]
  intro hl
  have hm : '\r' ∈ fmtInt e.2 := List.mem_of_getLast?_eq_some hl
  rcases mem_fmtInt e.2 _ hm with hd | hd
  · exact (isDigit_ne _ hd).2.1 rfl
  · exact absurd hd (by decide)

theorem loadLine_recordText (m : GoMap Int) (e : GoString × Int) (hk : ' ' ∉ e.1)
    (hr : inIntRange e.2) : loadLine m (recordText e) = mapSet m e.1 e.2 := by
  unfold loadLine recordText
  rw [List.append_assoc, List.singleton_append, SplitN2_key e.1 _ hk]
  simp only [Atoi_fmtInt e.2 hr]

theorem mapSet_fresh {β : Type} (m : GoMap β) (k : GoString) (v : β) (h : k ∉ mapKeys m) :
    mapSet m k v = m ++ [(k, v)] := by
  induction m with
  | nil => rfl
  | cons e m ih =>
    obtain ⟨k0, v0⟩ := e
    rw [mapKeys_cons, List.mem_cons, not_or] at h
    have h0 : ¬ k0 = k := fun hh => h.1 hh.symm
    rw [mapSet_cons, if_neg h0, ih h.2]
    rfl

theorem foldl_mapSet_fresh (es m : GoMap Int) (h : (mapKeys (m ++ es)).Nodup) :
    es.foldl (fun acc e => mapSet acc e.1 e.2) m = m ++ es := by
  induction es generalizing m with
  | nil => simp
  | cons e rest ih =>
    have hsplit : m ++ e :: rest = (m ++ [e]) ++ rest := by simp
    have hfresh : e.1 ∉ mapKeys m := by
      unfold mapKeys at h ⊢
      rw [List.map_append, List.map_cons] at h
      have h2 := (List.nodup_append.mp h).2.2
      intro hm
      exact h2 hm (List.mem_cons_self _ _)
    rw [List.foldl_cons, mapSet_fresh m e.1 e.2 hfresh]
    rw [hsplit] at h
    rw [ih (m ++ [e]) h, hsplit]

theorem mapGet_eq_some_iff {β : Type} (m : GoMap β) (hwf : mapWF m) (k : GoString) (v : β) :
    mapGet m k = some v ↔ (k, v) ∈ m := by
  induction m with
  | nil => exact ⟨fun h => (by cases h), fun h => (by cases h)⟩
  | cons e m ih =>
    obtain ⟨k0, v0⟩ := e
    unfold mapWF at hwf
    rw [mapKeys_cons, List.nodup_cons] at hwf
    rw [mapGet_cons, List.mem_cons]
    by_cases h0 : k0 = k
    · rw [if_pos h0]
      constructor
      · intro h
        simp only [Option.some.injEq] at h
        rw [h0, h]
        exact Or.inl rfl
      · rintro (h | h)
        · simp only [Prod.mk.injEq] at h
          rw [h.2]
        · exfalso
          apply hwf.1
          rw [h0]
          exact List.mem_map.mpr ⟨(k, v), h, rfl⟩
    · rw [if_neg h0, ih hwf.2]
      constructor
      · exact Or.inr
      · rintro (h | h)
        · simp only [Prod.mk.injEq] at h
          exact absurd h.1.symm h0
        · exact h

theorem mapGet_perm {β : Type} (m1 m2 : GoMap β) (hp : m1.Perm m2) (hwf : mapWF m2)
    (k : GoString) : mapGet m1 k = mapGet m2 k := by
  have hwf1 : mapWF m1 := (hp.map Prod.fst).nodup_iff.mpr hwf
  apply Option.ext
  intro v
  rw [Option.mem_def, Option.mem_def, mapGet_eq_some_iff m1 hwf1, mapGet_eq_some_iff m2 hwf]
  exact hp.mem_iff

theorem positiveEntries_wf (m : GoMap Int) (hwf : mapWF m) : mapWF (positiveEntries m) := by
  unfold mapWF mapKeys positiveEntries at *
  exact List.Nodup.sublist ((List.filter_sublist m).map Prod.fst) hwf

theorem mem_positiveEntries (m : GoMap Int) (e : GoString × Int) :
    e ∈ positiveEntries m ↔ e ∈ m ∧ 0 < e.2 := by
  unfold positiveEntries
  rw [List.mem_filter]
  simp

/-- Reading a written record: when no kept key holds a space or a line feed, every
kept line fits the scanner's buffer and no key occurs twice, the scanner loop rebuilds
the kept entries in the order written. -/
theorem loadLoop_saveLoop (es : GoMap Int) (hwf : mapWF es)
    (hrange : ∀ e ∈ es, inIntRange e.2)
    (hkey : ∀ e ∈ es, 0 < e.2 → ' ' ∉ e.1 ∧ '\n' ∉ e.1)
    (hlen : ∀ e ∈ es, 0 < e.2 → byteLen (recordText e) < MaxScanTokenSize) :
    loadLoop (saveLoop es) = positiveEntries es := by
  have hlines : splitLines (saveLoop es) = (positiveEntries es).map recordText := by
    rw [saveLoop_eq]
    have e1 : (positiveEntries es).map recordLine =
        ((positiveEntries es).map recordText).map (fun l => l ++ ['\n']) := by
      rw [List.map_map]
      rfl
    rw [e1, splitLines_lines]
    intro l hl
    obtain ⟨e, he, rfl⟩ := List.mem_map.mp hl
    have he2 := (mem_positiveEntries es e).mp he
    exact recordText_no_newline e (hkey e he2.1 he2.2).2
  have htok : scanTokens (saveLoop es) = (positiveEntries es).map recordText := by
    unfold scanTokens
    rw [hlines]
    have hall : ∀ l ∈ (positiveEntries es).map recordText,
        decide (byteLen l < MaxScanTokenSize) = true := by
      intro l hl
      obtain ⟨e, he, rfl⟩ := List.mem_map.mp hl
      have he2 := (mem_positiveEntries es e).mp he
      exact decide_eq_true (hlen e he2.1 he2.2)
    rw [List.takeWhile_eq_self_iff.mpr hall, List.map_map]
    apply List.map_congr_left
    intro e _
    exact dropCR_recordText e
  unfold loadLoop
  rw [htok, List.foldl_map]
  have hfold : ∀ (l m : GoMap Int), (∀ e ∈ l, ' ' ∉ e.1 ∧ inIntRange e.2) →
      l.foldl (fun acc e => loadLine acc (recordText e)) m =
        l.foldl (fun acc e => mapSet acc e.1 e.2) m := by
    intro l
    induction l with
    | nil => intro m _; rfl
    | cons e rest ih =>
      intro m h
      have he := h e (List.mem_cons_self e rest)
      rw [List.foldl_cons, List.foldl_cons, loadLine_recordText m e he.1 he.2]
      exact ih _ (fun x hx => h x (List.mem_cons_of_mem e hx))
  rw [hfold]
  · have h := foldl_mapSet_fresh (positiveEntries es) [] (by
      rw [List.nil_append]; exact positiveEntries_wf es hwf)
    rw [h, List.nil_append]
  · intro e he
    have he2 := (mem_positiveEntries es e).mp he
    exact ⟨(hkey e he2.1 he2.2).1, hrange e he2.1⟩

/-- C8, as stated, fails: the map with the one entry of key `k`, line feed, `x` and
count 2 is written as two lines, `k` and `x 2`, for its one entry, the second a record
line for the URL `x`, which the map does not hold; and the map with the one entry of
key `x`, line feed, `y -5`, line feed, `z` and count 1 is written as a record whose
line `y -5` reads back as the count -5 for `y`. -/
theorem C8_counterexample_line_feed_in_key :
    saveLoop [("k\nx".toList, 2)] = "k\nx 2\n".toList ∧
    splitLines (saveLoop [("k\nx".toList, 2)]) = ["k".toList, "x 2".toList] ∧
    loadLoop (saveLoop [("k\nx".toList, 2)]) = [("x".toList, 2)] ∧
    mapGet [("k\nx".toList, (2 : Int))] "x".toList = none ∧
    loadLoop (saveLoop [("x\ny -5\nz".toList, 1)]) = [("y".toList, -5), ("z".toList, 1)] := by
  refine ⟨?_, ?_, ?_, ?_, ?_⟩ <;> decide

/-- C8, amended: for a map in which no key with a count above zero holds a line feed,
what `saveUrlCount` writes to the source's file is, for the entries in the order
`range` yields them, the concatenation of one line per entry with a count above zero
and nothing for the other entries; a line is the URL, one space, the count in decimal
digits and a line feed. The entries written are the entries of the map with a count
above zero, each once; the lines of the file are exactly their texts, so every line is
the URL and the count, above zero, of an entry of the map. -/
theorem C8_saved_record (env : Env) (disk : Disk) (sourceUrl : GoString) (M : GoMap Int)
    (hk : ∀ e ∈ M, 0 < e.2 → '\n' ∉ e.1) :
    (env.createOk (env.md5_ sourceUrl) = true →
      saveUrlCount env disk sourceUrl M =
        some (mapSet disk (env.md5_ sourceUrl)
          (((positiveEntries (env.rangeOrder M)).map recordLine).flatten))) ∧
    saveLoop (env.rangeOrder M) =
      ((positiveEntries (env.rangeOrder M)).map recordLine).flatten ∧
    (positiveEntries (env.rangeOrder M)).Perm (positiveEntries M) ∧
    (∀ e, e ∈ positiveEntries (env.rangeOrder M) ↔ e ∈ M ∧ 0 < e.2) ∧
    (∀ e : GoString × Int, recordLine e = e.1 ++ [' '] ++ fmtInt e.2 ++ ['\n']) ∧
    (∀ c : Int, 0 < c →
      (fmtInt c).all isDigit = true ∧ fmtInt c ≠ [] ∧ (digitsValue (fmtInt c) : Int) = c) ∧
    splitLines (saveLoop (env.rangeOrder M)) =
      (positiveEntries (env.rangeOrder M)).map recordText ∧
    (∀ l ∈ splitLines (saveLoop (env.rangeOrder M)),
      ∃ e ∈ M, 0 < e.2 ∧ l = e.1 ++ [' '] ++ fmtInt e.2) := by
  have hmem : ∀ e, e ∈ positiveEntries (env.rangeOrder M) ↔ e ∈ M ∧ 0 < e.2 := by
    intro e
    rw [mem_positiveEntries, (env.rangeOrder_perm M).mem_iff]
  have hlines : splitLines (saveLoop (env.rangeOrder M)) =
      (positiveEntries (env.rangeOrder M)).map recordText := by
    rw [saveLoop_eq]
    have e1 : (positiveEntries (env.rangeOrder M)).map recordLine =
        ((positiveEntries (env.rangeOrder M)).map recordText).map (fun l => l ++ ['\n']) := by
      rw [List.map_map]
      rfl
    rw [e1, splitLines_lines]
    intro l hl
    obtain ⟨e, he, rfl⟩ := List.mem_map.mp hl
    have he2 := (hmem e).mp he
    exact recordText_no_newline e (hk e he2.1 he2.2)
  refine ⟨?_, saveLoop_eq _, (env.rangeOrder_perm M).filter _, hmem, fun _ => rfl,
    fmtInt_of_pos, hlines, ?_⟩
  · intro hc
    unfold saveUrlCount
    simp only [hc, if_true, saveLoop_eq]
  · intro l hl
    rw [hlines] at hl
    obtain ⟨e, he, rfl⟩ := List.mem_map.mp hl
    have he2 := (hmem e).mp he
    exact ⟨e, he2.1, he2.2, rfl⟩

/-- C8, amended, at a state with a positive, a zero and a negative count: the record
has the two lines of the entries with counts 3 and 12. -/
theorem C8_saved_record_witness :
    (∀ e ∈ exampleState, 0 < e.2 → '\n' ∉ e.1) ∧
    splitLines (saveLoop (exampleEnv.rangeOrder exampleState)) =
      ["https://x.com/a 3".toList, "https://x.com/d 12".toList] :=
  ⟨by decide,
    ((C8_saved_record exampleEnv [] "s".toList exampleState (by decide)).2.2.2.2.2.2.1).trans
      (by decide)⟩

/-- C4, as stated, fails: the map with the one entry `https://x.com/a b` of count 1,
whose key holds a space, is saved as the line `https://x.com/a b 1`; `loadUrlCount`
splits the line at its first space into `https://x.com/a` and `b 1`, `Atoi` fails on
`b 1`, and the line is skipped: the map loaded is empty although the entry has a count
above zero. -/
theorem C4_counterexample_space_in_key :
    saveLoop [("https://x.com/a b".toList, 1)] = "https://x.com/a b 1\n".toList ∧
    scanTokens "https://x.com/a b 1\n".toList = ["https://x.com/a b 1".toList] ∧
    SplitN2 "https://x.com/a b 1".toList = ["https://x.com/a".toList, "b 1".toList] ∧
    Atoi "b 1".toList = none ∧
    saveThenLoad exampleEnv [] "s".toList [("https://x.com/a b".toList, 1)] = some [] ∧
    mapGet (positiveEntries [("https://x.com/a b".toList, 1)]) "https://x.com/a b".toList =
      some 1 := by
  refine ⟨?_, ?_, ?_, ?_, ?_, ?_⟩ <;> decide

/-- C4, amended: for a map whose keys with a count above zero hold neither a space nor
a line feed and whose lines fit the scanner's buffer (less than 65536 bytes), when the
file can be created and opened, loading what `saveUrlCount` wrote gives a map with
exactly the entries of `M` that have a count above zero: the same keys with the same
counts, whatever the order in which they were written. -/
theorem C4_round_trip (env : Env) (disk : Disk) (sourceUrl : GoString) (M : GoMap Int)
    (hwf : mapWF M) (hrange : ∀ e ∈ M, inIntRange e.2)
    (hkey : ∀ e ∈ M, 0 < e.2 → ' ' ∉ e.1 ∧ '\n' ∉ e.1)
    (hlen : ∀ e ∈ M, 0 < e.2 → byteLen (recordText e) < MaxScanTokenSize)
    (hc : env.createOk (env.md5_ sourceUrl) = true)
    (ho : env.openOk (env.md5_ sourceUrl) = true) :
    ∃ M2, saveThenLoad env disk sourceUrl M = some M2 ∧
      M2.Perm (positiveEntries M) ∧
      (∀ k, mapGet M2 k = mapGet (positiveEntries M) k) ∧
      (∀ k c, mapGet M2 k = some c ↔ mapGet M k = some c ∧ 0 < c) := by
  have hp := env.rangeOrder_perm M
  have hwf2 : mapWF (env.rangeOrder M) := (hp.map Prod.fst).nodup_iff.mpr hwf
  have hload : loadLoop (saveLoop (env.rangeOrder M)) = positiveEntries (env.rangeOrder M) :=
    loadLoop_saveLoop _ hwf2 (fun e he => hrange e (hp.mem_iff.mp he))
      (fun e he => hkey e (hp.mem_iff.mp he)) (fun e he => hlen e (hp.mem_iff.mp he))
  have hperm : (positiveEntries (env.rangeOrder M)).Perm (positiveEntries M) := hp.filter _
  have hget : ∀ k, mapGet (positiveEntries (env.rangeOrder M)) k = mapGet (positiveEntries M) k :=
    fun k => mapGet_perm _ _ hperm (positiveEntries_wf M hwf) k
  refine ⟨positiveEntries (env.rangeOrder M), ?_, hperm, hget, ?_⟩
  · unfold saveThenLoad saveUrlCount loadUrlCount
    simp only [hc, if_true, Option.some_bind, mapGet_mapSet_same, ho, hload]
  · intro k c
    rw [hget k, mapGet_eq_some_iff _ (positiveEntries_wf M hwf), mem_positiveEntries,
      mapGet_eq_some_iff _ hwf]

/-- C4, amended, at a state with a positive, a zero and a negative count. -/
theorem C4_round_trip_witness :
    ∃ M2, saveThenLoad exampleEnv [] "s".toList exampleState = some M2 ∧
      M2.Perm (positiveEntries exampleState) ∧
      (∀ k, mapGet M2 k = mapGet (positiveEntries exampleState) k) ∧
      (∀ k c, mapGet M2 k = some c ↔ mapGet exampleState k = some c ∧ 0 < c) :=
  C4_round_trip exampleEnv [] "s".toList exampleState
    (by decide) (by decide) (by decide) (by decide) rfl rfl

/-! ## The report -/

theorem serveLoop_concat (env : Env) (streams : Nat → List link) (i : Nat)
    (ss : List GoString) (src : GoString) (sv : Server) :
    serveLoop env streams i (ss ++ [src]) sv =
      servePass env (serveLoop env streams i ss sv) src (streams (i + ss.length)) := by
  induction ss generalizing i sv with
  | nil => rfl
  | cons a rest ih =>
    rw [List.cons_append, serveLoop, serveLoop, ih, List.length_cons]
    congr 2
    omega

theorem serveLoop_w (env : Env) (streams : Nat → List link) (ss : List GoString) (sv : Server) :
    (serveLoop env streams 0 ss sv).w =
      sv.w ++ ((List.range ss.length).map (fun i =>
        sectionOf (ss.getD i [])
          (foundBy (serveLoop env streams 0 (ss.take i) sv).urlCount (ss.getD i [])
            (streams i)))).flatten := by
  induction ss using List.reverseRecOn with
  | nil => simp [serveLoop]
  | append_singleton ss src ih =>
    rw [serveLoop_concat, servePass_w, ih, List.length_append, List.length_singleton,
      List.range_succ, List.map_append, List.flatten_append, List.append_assoc, Nat.zero_add]
    congr 2
    · congr 1
      apply List.map_congr_left
      intro i hi
      have hi2 : i < ss.length := List.mem_range.mp hi
      rw [List.getD_append _ _ _ _ hi2, List.take_append_of_le_length (Nat.le_of_lt hi2)]
    · simp only [List.map_cons, List.map_nil, List.flatten_cons, List.flatten_nil,
        List.append_nil, List.take_left]
      have e : (ss ++ [src]).getD ss.length [] = src := by
        rw [List.getD_eq_getElem?_getD, List.getElem?_concat_length]
        rfl
      rw [e]

theorem responseText_append (w1 w2 : List Write) :
    responseText (w1 ++ w2) = responseText w1 ++ responseText w2 := by
  unfold responseText
  rw [List.map_append, List.flatten_append]

theorem responseText_flatten (L : List (List Write)) :
    responseText L.flatten = (L.map responseText).flatten := by
  induction L with
  | nil => rfl
  | cons a rest ih =>
    rw [List.flatten_cons, responseText_append, ih, List.map_cons, List.flatten_cons]

theorem notices_map_entry (R : List link) : notices (R.map Write.entry) = 0 := by
  induction R with
  | nil => rfl
  | cons l R ih =>
    unfold notices at *
    rw [List.map_cons, List.count_cons, ih]
    simp

theorem notices_sectionOf (sourceUrl : GoString) (R : List link) :
    notices (sectionOf sourceUrl R) = if R = [] then 1 else 0 := by
  have h := notices_map_entry R
  unfold sectionOf notices at *
  rw [List.count_append, List.count_append, h]
  by_cases hR : R = []
  · simp [hR]
  · simp [hR]

theorem reported_sectionOf (sourceUrl : GoString) (R : List link) :
    reported (sectionOf sourceUrl R) = R := by
  unfold sectionOf
  rw [reported_append, reported_append, reported_map_entry]
  by_cases hR : R = []
  · simp [hR, reported]
  · simp [hR, reported]

/-- C9: the writes of `ServeHTTP` are the header, then for each source, in the order of
`sourceUrls`, its section, then the footer, and the text of the response is the
concatenation of their texts. The section of a source is its heading, then one entry
for each link that the diff loop found in the round of that source, in the order
found, then the notice when no link was found; so a section holds the notice once when
the source has no new link and not at all otherwise. The heading carries the source
URL, an entry the URL and the text of its link. -/
theorem C9_report_sections (env : Env) (h : httpHandler) (disk : Disk)
    (streams : Nat → List link) :
    (ServeHTTP env h disk streams).w =
      [Write.header] ++
        ((List.range h.sourceUrls.length).map (fun i =>
          sectionOf (h.sourceUrls.getD i []) (foundAt env h disk streams i))).flatten ++
        [Write.footer] ∧
    responseText (ServeHTTP env h disk streams).w =
      Write.header.text ++
        ((List.range h.sourceUrls.length).map (fun i =>
          responseText
            (sectionOf (h.sourceUrls.getD i []) (foundAt env h disk streams i)))).flatten ++
        Write.footer.text ∧
    (∀ (sourceUrl : GoString) (R : List link),
      sectionOf sourceUrl R =
        Write.heading sourceUrl :: (R.map Write.entry ++ if R = [] then [Write.notice] else [])) ∧
    (∀ (sourceUrl : GoString) (R : List link),
      notices (sectionOf sourceUrl R) = if R = [] then 1 else 0) ∧
    (∀ (sourceUrl : GoString) (R : List link), reported (sectionOf sourceUrl R) = R) ∧
    (∀ sourceUrl : GoString,
      (Write.heading sourceUrl).text = "<h3>".toList ++ sourceUrl ++ "</h3>\n".toList) ∧
    (∀ l : link,
      (Write.entry l).text =
        "<p><a href=\"".toList ++ l.url ++ "\">".toList ++ l.text ++ "</a></p>\n".toList) ∧
    Write.notice.text = "<p>No new links found</p>".toList := by
  have hw : (ServeHTTP env h disk streams).w =
      [Write.header] ++
        ((List.range h.sourceUrls.length).map (fun i =>
          sectionOf (h.sourceUrls.getD i []) (foundAt env h disk streams i))).flatten ++
        [Write.footer] := by
    show (serveLoop env streams 0 h.sourceUrls
      { urlCount := h.urlCount, w := [Write.header], disk := disk }).w ++ [Write.footer] = _
    rw [serveLoop_w]
    rfl
  refine ⟨hw, ?_, fun _ _ => rfl, notices_sectionOf, reported_sectionOf, fun _ => rfl,
    fun _ => rfl, rfl⟩
  rw [hw, responseText_append, responseText_append, responseText_flatten, List.map_map]
  rfl

end Links
